import Mathlib

/-!
# synology-drive-ignore: the rule merge, the compliance check, the debounce and the exit wait

A shallow embedding of `main.go`.  Go strings are modelled as lists of Unicode
code points (`Str`), i.e. the configuration text is taken to be valid UTF-8;
all byte-level operations the program uses (`Contains`, `HasPrefix`,
`HasSuffix`, `Split`, `SplitN`, slicing at the ASCII bytes `[`, `]`, `=`)
agree with their code-point counterparts on such text.
-/

set_option maxRecDepth 200000

namespace SynologyDriveIgnore

/-- A Go string, as its sequence of code points. -/
abbrev Str := List Char

/-! ## The parts of Go's `strings`, `unicode` and `fmt` packages that the program calls -/

/-- Go `unicode.IsSpace`: the Latin-1 spaces and the code points with the
Unicode White_Space property. -/
def isSpace (c : Char) : Bool :=
  let r := c.toNat
  r == 0x09 || r == 0x0A || r == 0x0B || r == 0x0C || r == 0x0D || r == 0x20 ||
  r == 0x85 || r == 0xA0 || r == 0x1680 || (0x2000 ≤ r && r ≤ 0x200A) ||
  r == 0x2028 || r == 0x2029 || r == 0x202F || r == 0x205F || r == 0x3000

/-- Go `strings.TrimSpace`: drop the leading and the trailing white space. -/
def trimSpace (s : Str) : Str :=
  ((s.dropWhile isSpace).reverse.dropWhile isSpace).reverse

/-- Go `strings.HasPrefix`. -/
def hasPrefix (s pre : Str) : Bool := pre.isPrefixOf s

/-- Go `strings.HasSuffix`. -/
def hasSuffix (s suf : Str) : Bool := suf.reverse.isPrefixOf s.reverse

/-- Go `strings.Contains`: `substr` occurs in `s` as a contiguous run. -/
def contains : Str → Str → Bool
  | [], substr => substr.isEmpty
  | c :: cs, substr => substr.isPrefixOf (c :: cs) || contains cs substr

/-- Go `strings.Split(s, "\n")`: the pieces between the newlines, at least one. -/
def splitLines : Str → List Str
  | [] => [[]]
  | c :: cs =>
    if c = '\n' then [] :: splitLines cs
    else match splitLines cs with
      | [] => [[c]]
      | l :: ls => (c :: l) :: ls

/-- Go `strings.SplitN(s, "=", 2)` on a string that contains `=`: what stands
before the first `=`, and what stands after it. -/
def splitAtEq (s : Str) : Str × Str :=
  (s.takeWhile (fun c => c != '='), (s.dropWhile (fun c => c != '=')).drop 1)

/-- Go `strings.Join`. -/
def join : List Str → Str → Str
  | [], _ => []
  | [e], _ => e
  | e :: e2 :: es, sep => e ++ sep ++ join (e2 :: es) sep

/-- The Go slice expression `s[lo:hi]`. -/
def slice (s : Str) (lo hi : Nat) : Str := (s.take hi).drop lo

/-- Go `fmt.Sprintf("\"%s\"", d)`. -/
def quoted (d : Str) : Str := '"' :: d ++ ['"']

/-! ## The rule set -/

/-- The package variable `defaultIgnoreDirs`, in source order (`target` is listed twice). -/
def defaultIgnoreDirs : List Str :=
  [".git", ".gitignore", ".idea", ".vscode", ".cache", "dist", "build", "out", "target",
   "logs", "log",
   "venv", ".venv", "__pycache__", ".pytest_cache", ".mypy_cache", ".tox", "*.egg-info",
   ".eggs", "htmlcov", ".coverage",
   "node_modules", ".next", ".nuxt", ".output",
   "vendor",
   ".build", "DerivedData", ".swiftpm", "Pods",
   ".dart_tool", ".flutter-plugins", ".flutter-plugins-dependencies", ".pub-cache", ".pub",
   "target",
   ".gradle", ".mvn",
   ".bundle",
   ".sass-cache", ".eslintcache", ".DS_Store"].map String.toList

/-- The function `ensureBlackList`; the package variable it ranges over
(`defaultIgnoreDirs`) is passed as `rules`. -/
def ensureBlackList (rules : List Str) (current : Str) : Str :=
  let missing := rules.foldl (fun missing d =>
    if !contains current (quoted d) && !contains current d then missing ++ [d] else missing) []
  if missing.length == 0 then current
  else
    let current :=
      if current.length > 0 && !hasSuffix current [',', ' '] then current ++ [',', ' ']
      else current
    let toAppend := missing.foldl (fun toAppend m => toAppend ++ [quoted m]) []
    current ++ join toAppend [',', ' ']

/-! ## `ensureFileHasRules`: parse, update, reconstruct -/

/-- The string `"Directory"`: the section that is created when missing. -/
def directoryName : Str := "Directory".toList

/-- The string `"Common"`: the section that is updated only when present. -/
def commonName : Str := "Common".toList

/-- The string `"black_name"`: the key whose value carries the ignore list. -/
def blackName : Str := "black_name".toList

/-- The local type `KeyVal`. -/
structure KeyVal where
  Key : Str
  Value : Str
deriving DecidableEq, Repr

/-- The local type `Section`. -/
structure Section where
  Name : Str
  Keys : List KeyVal
deriving DecidableEq, Repr

/-- The position of the first section called `name`, if any (the loops
`for _, s := range sections { if s.Name == name ... }`). -/
def findSection (name : Str) : List Section → Option Nat
  | [] => none
  | s :: rest => if s.Name = name then some 0 else (findSection name rest).map (· + 1)

/-- The position of the first entry with key `key`, if any. -/
def findKey (key : Str) : List KeyVal → Option Nat
  | [] => none
  | kv :: rest => if kv.Key = key then some 0 else (findKey key rest).map (· + 1)

/-- Writing through a `*Section` pointer: the section at position `i` is replaced by `f` of it. -/
def updateAt (f : Section → Section) : Nat → List Section → List Section
  | _, [] => []
  | 0, s :: rest => f s :: rest
  | i + 1, s :: rest => s :: updateAt f i rest

/-- Writing `Value` through a `*KeyVal` pointer (or `Keys[i].Value = v`). -/
def setValueAt (v : Str) : Nat → List KeyVal → List KeyVal
  | _, [] => []
  | 0, kv :: rest => { kv with Value := v } :: rest
  | i + 1, kv :: rest => kv :: setValueAt v i rest

/-- The closure `getSection`: the section called `name`, appended as an empty
section when there is none.  Returns the section list and the position of the
section (the pointer the Go closure returns). -/
def getSection (sections : List Section) (name : Str) : List Section × Nat :=
  match findSection name sections with
  | some i => (sections, i)
  | none => (sections ++ [{ Name := name, Keys := [] }], sections.length)

/-- The state of the parse loop: `sections` and the pointer `currentSec`
(`none` is Go's `nil`). -/
structure ParseState where
  sections : List Section
  currentSec : Option Nat
deriving DecidableEq, Repr

/-- The assignment inside the parse loop: overwrite the value of the first
entry with this key, or append a new entry. -/
def assignKey (key val : Str) (keys : List KeyVal) : List KeyVal :=
  match findKey key keys with
  | some i => setValueAt val i keys
  | none => keys ++ [{ Key := key, Value := val }]

/-- One iteration of the parse loop. -/
def parseLine (st : ParseState) (line : Str) : ParseState :=
  let trimmed := trimSpace line
  if hasPrefix trimmed ['['] && hasSuffix trimmed [']'] then
    let secName := slice trimmed 1 (trimmed.length - 1)
    let (sections, i) := getSection st.sections secName
    { sections := sections, currentSec := some i }
  else if contains trimmed ['='] then
    match st.currentSec with
    | none => st
    | some i =>
      let parts := splitAtEq trimmed
      let key := trimSpace parts.1
      let val := trimSpace parts.2
      { st with sections := updateAt (fun s => { s with Keys := assignKey key val s.Keys }) i st.sections }
  else st

/-- Step 1 of `ensureFileHasRules`: the sections of a file content. -/
def parse (content : Str) : List Section :=
  ((splitLines content).foldl parseLine { sections := [], currentSec := none }).sections

/-- The value of `black_name` in a list of entries, `""` when the key is absent
(`currentVal` in the source). -/
def currentValue (keys : List KeyVal) : Str :=
  match findKey blackName keys with
  | some j => (keys[j]?.map KeyVal.Value).getD []
  | none => []

/-- The body of `if sec != nil { ... }` on the section itself: the new entries
and whether they changed. -/
def updateKeys (rules : List Str) (keys : List KeyVal) : List KeyVal × Bool :=
  let kv := findKey blackName keys
  let currentVal := currentValue keys
  let newVal := ensureBlackList rules currentVal
  if currentVal ≠ newVal then
    match kv with
    | some j => (setValueAt newVal j keys, true)
    | none => (keys ++ [{ Key := blackName, Value := newVal }], true)
  else (keys, false)

/-- One iteration of the update loop over `targetSections`. -/
def updateTarget (rules : List Str) (st : List Section × Bool) (secName : Str) :
    List Section × Bool :=
  let sections := st.1
  let wasUpdated := st.2
  let sec := findSection secName sections
  let (sections, sec, wasUpdated) :=
    if secName = directoryName ∧ sec = none then
      let (sections, i) := getSection sections directoryName
      (sections, some i, true)
    else (sections, sec, wasUpdated)
  match sec with
  | none => (sections, wasUpdated)
  | some i =>
    let keys := (sections[i]?.map Section.Keys).getD []
    let (keys, changed) := updateKeys rules keys
    if changed then (updateAt (fun s => { s with Keys := keys }) i sections, true)
    else (sections, wasUpdated)

/-- The local variable `targetSections`. -/
def targetSections : List Str := [directoryName, commonName]

/-- Step 2 of `ensureFileHasRules`: the sections after the update loop, and `wasUpdated`. -/
def update (rules : List Str) (sections : List Section) : List Section × Bool :=
  targetSections.foldl (updateTarget rules) (sections, false)

/-- Step 3 of `ensureFileHasRules`: the text written back. -/
def reconstruct (sections : List Section) : Str :=
  sections.foldl (fun sb sec =>
    let sb := sb ++ ('[' :: sec.Name ++ [']', '\n'])
    let sb := sec.Keys.foldl (fun sb kv => sb ++ (kv.Key ++ '=' :: kv.Value ++ ['\n'])) sb
    sb ++ ['\n']) []

/-- The function `ensureFileHasRules` on the content it has read, up to the
write: `none` when it returns `false` before writing anything (`!wasUpdated`),
`some text` when it goes on to back up the file and write `text`. -/
def ensureFileHasRules (rules : List Str) (content : Str) : Option Str :=
  let r := update rules (parse content)
  if !r.2 then none else some (reconstruct r.1)

/-- The merge under a rule set, as a function on the file content: the content
of the file afterwards (the write succeeding) and whether it was rewritten. -/
def mergeWith (rules : List Str) (content : Str) : Str × Bool :=
  match ensureFileHasRules rules content with
  | none => (content, false)
  | some text => (text, true)

/-- The merge under the rule set of the program, `defaultIgnoreDirs`. -/
def merge (content : Str) : Str × Bool := mergeWith defaultIgnoreDirs content

/-- The check of `fileNeedsRules` on a file content (`rules` is `defaultIgnoreDirs`). -/
def needsRules (rules : List Str) (current : Str) : Bool :=
  rules.any (fun d => !contains current (quoted d) && !contains current d)

/-- The function `fileNeedsRules` on the content it has read. -/
def fileNeedsRules (content : Str) : Bool := needsRules defaultIgnoreDirs content

/-! ## The watch loop of `main`: the debounce timer

Time is a natural number of seconds.  An `fsnotify` event is handled at the
instant it arrives; a timer made by `time.AfterFunc(5*time.Second, f)` at time
`t` runs `f` at `t + 5` unless `Stop` is called on it before. -/

/-- The external commands and calls of `enforceCycle`, in the order it issues them. -/
inductive Action where
  /-- The AppleScript `tell application "Synology Drive Client" to quit`. -/
  | quit
  /-- The command `pkill -f pattern`. -/
  | pkill (pattern : Str)
  /-- The command `pkill -9 -f pattern`. -/
  | pkill9 (pattern : Str)
  /-- The command `pgrep -f cloud-drive-daemon`. -/
  | pgrep
  /-- The call `time.Sleep(n * time.Second)`. -/
  | sleep (n : Nat)
  /-- The call `checkAndEnforce(confDir)`: the write phase. -/
  | checkAndEnforce
  /-- The command `open -a "Synology Drive Client"`. -/
  | openApp
  /-- The call `notify(...)`. -/
  | notify
deriving DecidableEq, Repr

/-- The case that a `select` over a timeout channel and a ticker channel
takes; for a tick, whether `pgrep` finds the process (`err == nil`). -/
inductive Select where
  | timeout
  | tick (found : Bool)
deriving DecidableEq, Repr

/-- The pattern `cloud-drive-daemon`. -/
def daemonPattern : Str := "cloud-drive-daemon".toList

/-- The pattern `cloud-drive-ui`. -/
def uiPattern : Str := "cloud-drive-ui".toList

/-- The number of forceful termination requests against `pattern` in a log, in
the vocabulary of the specification: it calls both the `pkill` fallback of a
failed quit and the `pkill -9` of the exit-wait timeout a forceful termination. -/
def terminationRequests (pattern : Str) (log : List Action) : Nat :=
  log.count (Action.pkill pattern) + log.count (Action.pkill9 pattern)

/-- The loop `for processOpen { select { ... } }` on the cases its `select`
takes: the commands it runs and whether it comes to an end (it does not when
the cases run out while `processOpen` is still true). -/
def awaitExit : List Select → List Action × Bool
  | [] => ([], false)
  | Select.timeout :: _ => ([Action.pkill9 daemonPattern, Action.pkill9 uiPattern], true)
  | Select.tick found :: rest =>
    if found then ((Action.pgrep :: (awaitExit rest).1), (awaitExit rest).2)
    else ([Action.pgrep], true)

/-- The loop `for !started { select { ... } }`, likewise. -/
def awaitStart : List Select → List Action × Bool
  | [] => ([], false)
  | Select.timeout :: _ => ([], true)
  | Select.tick found :: rest =>
    if found then ([Action.pgrep], true)
    else ((Action.pgrep :: (awaitStart rest).1), (awaitStart rest).2)

/-- The function `enforceCycle`: the commands and calls it issues, in order,
given whether the AppleScript quit succeeds and the cases that its two
`select` loops take. -/
def enforceCycle (quitOk : Bool) (exitSelects startSelects : List Select) : List Action :=
  let log := [Action.quit] ++
    (if !quitOk then [Action.pkill daemonPattern, Action.pkill uiPattern] else [])
  let exit := awaitExit exitSelects
  if !exit.2 then log ++ exit.1
  else
    let log := log ++ exit.1 ++ [Action.sleep 1, Action.checkAndEnforce, Action.openApp]
    let start := awaitStart startSelects
    if !start.2 then log ++ start.1
    else log ++ start.1 ++ [Action.notify]

/-! ## The input and the output as the specification describes them -/

/-- The distinct elements of a list, each at the place of its first occurrence. -/
def dedupFirst : List Str → List Str
  | [] => []
  | x :: xs => x :: (dedupFirst xs).filter (fun y => y ≠ x)

/-- The section name of a line that reads `[name]` once white space is trimmed. -/
def headerOf (line : Str) : Option Str :=
  let t := trimSpace line
  if hasPrefix t ['['] && hasSuffix t [']'] then some (slice t 1 (t.length - 1))
  else none

/-- The key and the value of a line that is no header and contains `=`
(both trimmed, split at the first `=`). -/
def assignmentOf (line : Str) : Option (Str × Str) :=
  let t := trimSpace line
  if hasPrefix t ['['] && hasSuffix t [']'] then none
  else if contains t ['='] then
    some (trimSpace (splitAtEq t).1, trimSpace (splitAtEq t).2)
  else none

/-- The section that is open after some lines, `cur` being open before them:
the one named by the last header line. -/
def openAfter (cur : Option Str) : List Str → Option Str
  | [] => cur
  | l :: ls =>
    match headerOf l with
    | some h => openAfter (some h) ls
    | none => openAfter cur ls

/-- The assignments that the lines make inside section `n`, in input order,
`cur` being the section open before the first line. -/
def assignmentsFrom (n : Str) : Option Str → List Str → List (Str × Str)
  | _, [] => []
  | cur, l :: ls =>
    match headerOf l with
    | some h => assignmentsFrom n (some h) ls
    | none =>
      match assignmentOf l with
      | some kv =>
        if cur = some n then kv :: assignmentsFrom n cur ls else assignmentsFrom n cur ls
      | none => assignmentsFrom n cur ls

/-- The value of the last assignment to key `k`. -/
def lastValue (k : Str) (assignments : List (Str × Str)) : Str :=
  match assignments.reverse.find? (fun kv => kv.1 = k) with
  | some kv => kv.2
  | none => []

/-- The section names of an input, distinct, in first-occurrence order. -/
def inputSectionNames (content : Str) : List Str :=
  dedupFirst ((splitLines content).filterMap headerOf)

/-- The assignments of an input inside section `n`. -/
def inputAssignments (content : Str) (n : Str) : List (Str × Str) :=
  assignmentsFrom n none (splitLines content)

/-- The entries of a section as the data model has them: every key at the
place of its first assignment, with the value of its last. -/
def collapse (assignments : List (Str × Str)) : List KeyVal :=
  (dedupFirst (assignments.map Prod.fst)).map
    (fun k => { Key := k, Value := lastValue k assignments })

/-- The sections of the data model for a list of lines: the distinct section
names in first-occurrence order, each with its collapsed assignments. -/
def parsedForm (lines : List Str) : List Section :=
  (dedupFirst (lines.filterMap headerOf)).map
    (fun n => { Name := n, Keys := collapse (assignmentsFrom n none lines) })

/-- A section with its `black_name` entry brought up to date. -/
def refresh (rules : List Str) (s : Section) : Section :=
  { s with Keys := (updateKeys rules s.Keys).1 }

/-- The sections that the update loop looks at. -/
def isTargetSection (n : Str) : Bool := decide (n = directoryName ∨ n = commonName)

/-- The text of one section: its header line, its `key=value` lines, a blank line. -/
def renderSection (sec : Section) : Str :=
  '[' :: sec.Name ++ [']', '\n'] ++
    (sec.Keys.map (fun kv => kv.Key ++ '=' :: kv.Value ++ ['\n'])).flatten ++ ['\n']

/-- The value of `black_name` in section `n` of an input, `""` when the
section or the key is absent. -/
def inputValue (content : Str) (n : Str) : Str :=
  match (parse content).find? (fun s => s.Name = n) with
  | some s => currentValue s.Keys
  | none => []

/-- A rule set of three tokens. -/
def threeRules : List Str := ["node_modules", "dist", ".git"].map String.toList

/-- A `black_name` value that lists every token of `defaultIgnoreDirs`, quoted. -/
def completeValue : Str :=
  ("\".git\", \".gitignore\", \".idea\", \".vscode\", \".cache\", " ++
   "\"dist\", \"build\", \"out\", \"target\", \"logs\", \"log\", \"venv\", \".venv\", " ++
   "\"__pycache__\", \".pytest_cache\", \".mypy_cache\", \".tox\", \"*.egg-info\", \".eggs\", " ++
   "\"htmlcov\", \".coverage\", \"node_modules\", \".next\", \".nuxt\", \".output\", \"vendor\", " ++
   "\".build\", \"DerivedData\", \".swiftpm\", \"Pods\", \".dart_tool\", \".flutter-plugins\", " ++
   "\".flutter-plugins-dependencies\", \".pub-cache\", \".pub\", \"target\", \".gradle\", " ++
   "\".mvn\", \".bundle\", \".sass-cache\", \".eslintcache\", \".DS_Store\"").toList

/-- A file content whose only section is a complete `[Directory]`. -/
def completeText : Str :=
  "[Directory]\nblack_name=".toList ++ completeValue ++ "\n\n".toList

/-- The sections that `ensureFileHasRules` holds after its update loop: what
it writes back when something changed, and what the file already is otherwise. -/
def mergedSections (content : Str) : List Section :=
  (update defaultIgnoreDirs (parse content)).1

/-- A file content with an incomplete `[Directory]` and a complete `[Common]`. -/
def commonOnlyText : Str :=
  "[Directory]\nblack_name=\"tmp\"\n\n[Common]\nblack_name=".toList ++ completeValue ++
    "\n\n".toList

/-- A file content whose `[Directory]` lists `.gitignore` only. -/
def gitignoreText : Str := "[Directory]\nblack_name=\".gitignore\"\n".toList

/-- The `[Directory]` section that the merge makes of `gitignoreText`. -/
def gitignoreMerged : Section :=
  { Name := directoryName,
    Keys := [{ Key := blackName, Value := "\".gitignore\", ".toList ++ completeValue.drop 22 }] }

/-- The input of the scenario: a `[Common]` section that lists `node_modules`. -/
def scenarioText : Str := "[Common]\nblack_name=\"node_modules\"\n".toList

/-- A key and a value that a `key=value` line of the output gives back when it
is read again: no line break, no `=` in the key, both trimmed, and the line
not of the form `[...]`. -/
def GoodPair (k v : Str) : Prop :=
  '\n' ∉ k ∧ '\n' ∉ v ∧ '=' ∉ k ∧ trimSpace k = k ∧ trimSpace v = v ∧
    ¬ (k.head? = some '[' ∧ v.getLast? = some ']')

/-- A section that the output gives back when it is read again. -/
def GoodSection (s : Section) : Prop :=
  '\n' ∉ s.Name ∧ (s.Keys.map KeyVal.Key).Nodup ∧ ∀ kv ∈ s.Keys, GoodPair kv.Key kv.Value

/-- The lines that `reconstruct` writes for a section. -/
def sectionLines (s : Section) : List Str :=
  ('[' :: s.Name ++ [']']) :: s.Keys.map (fun kv => kv.Key ++ '=' :: kv.Value) ++ [[]]

theorem contains_iff (s sub : Str) : contains s sub = true ↔ sub <:+: s := by
  induction s with
  | nil => cases sub <;> simp [contains]
  | cons c cs ih =>
    simp only [contains, Bool.or_eq_true, ih, List.isPrefixOf_iff_prefix]
    exact List.infix_cons_iff.symm

theorem hasSuffix_iff (s suf : Str) : hasSuffix s suf = true ↔ suf <:+ s := by
  simp [hasSuffix, List.isPrefixOf_iff_prefix, List.reverse_prefix]

theorem foldl_collect {α : Type} (p : α → Bool) (l acc : List α) :
    l.foldl (fun m d => if p d then m ++ [d] else m) acc = acc ++ l.filter p := by
  induction l generalizing acc with
  | nil => simp
  | cons a l ih =>
    simp only [List.foldl_cons, ih, List.filter_cons]
    split <;> simp

theorem foldl_snoc_map {α β : Type} (f : α → β) (l : List α) (acc : List β) :
    l.foldl (fun m d => m ++ [f d]) acc = acc ++ l.map f := by
  induction l generalizing acc with
  | nil => simp
  | cons a l ih => simp [ih]

theorem join_eq_intercalate (l : List Str) (sep : Str) : join l sep = sep.intercalate l := by
  induction l with
  | nil => rfl
  | cons a l ih =>
    cases l with
    | nil => simp [join, List.intercalate]
    | cons b l =>
      simp only [join, ih]
      simp [List.intercalate, List.intersperse]

/-- The tokens of `rules` that `ensureBlackList` finds missing in `current`. -/
theorem missing_eq (rules : List Str) (current : Str) :
    rules.foldl (fun missing d =>
      if !contains current (quoted d) && !contains current d then missing ++ [d] else missing) []
    = rules.filter (fun d => !contains current (quoted d) && !contains current d) := by
  rw [foldl_collect]; simp

theorem ensureBlackList_eq (rules : List Str) (current : Str) :
    ensureBlackList rules current =
      if rules.filter (fun d => !contains current (quoted d) && !contains current d) = [] then current
      else (if current = [] ∨ [',', ' '] <:+ current then current else current ++ [',', ' ']) ++
        [',', ' '].intercalate
          ((rules.filter (fun d => !contains current (quoted d) && !contains current d)).map quoted) := by
  unfold ensureBlackList
  simp only [missing_eq, foldl_snoc_map, join_eq_intercalate, List.nil_append]
  by_cases hm : rules.filter (fun d => !contains current (quoted d) && !contains current d) = []
  · simp [hm]
  · have hl : ¬ (rules.filter (fun d => !contains current (quoted d) && !contains current d)).length = 0 := by
      simpa [List.length_eq_zero] using hm
    simp only [hm, if_false, beq_iff_eq, hl]
    congr 1
    by_cases hc : current = []
    · simp [hc]
    · have hpos : 0 < current.length := List.length_pos.mpr hc
      by_cases hs : [',', ' '] <:+ current
      · have h1 : hasSuffix current [',', ' '] = true := (hasSuffix_iff current _).mpr hs
        have h2 : [',', ' '] <:+ current := hs
        simp [hc, h1, h2]
      · have h1 : hasSuffix current [',', ' '] = false := by
          rw [← Bool.not_eq_true, hasSuffix_iff]; exact hs
        have h2 : ¬ [',', ' '] <:+ current := hs
        simp [hc, h1, h2, hpos]

/-! ### Pointers as positions -/

theorem findSection_eq_none {n : Str} {secs : List Section} :
    findSection n secs = none ↔ ∀ s ∈ secs, s.Name ≠ n := by
  induction secs with
  | nil => simp [findSection]
  | cons s rest ih =>
    by_cases h : s.Name = n <;> simp [findSection, h, ih]

theorem findSection_eq_some {n : Str} {secs : List Section} {i : Nat}
    (h : findSection n secs = some i) :
    ∃ pre s post, secs = pre ++ s :: post ∧ pre.length = i ∧ s.Name = n ∧
      ∀ p ∈ pre, p.Name ≠ n := by
  induction secs generalizing i with
  | nil => simp [findSection] at h
  | cons s rest ih =>
    by_cases hs : s.Name = n
    · simp [findSection, hs] at h
      exact ⟨[], s, rest, by simp, by simp [h], hs, by simp⟩
    · simp only [findSection, hs, if_false, Option.map_eq_some'] at h
      obtain ⟨j, hj, rfl⟩ := h
      obtain ⟨pre, t, post, rfl, hl, ht, hp⟩ := ih hj
      refine ⟨s :: pre, t, post, by simp, by simp [hl], ht, ?_⟩
      intro p hp'
      rcases List.mem_cons.mp hp' with rfl | hp'
      · exact hs
      · exact hp p hp'

theorem findSection_append_cons {n : Str} (pre : List Section) (s : Section) (post : List Section)
    (hp : ∀ p ∈ pre, p.Name ≠ n) (hs : s.Name = n) :
    findSection n (pre ++ s :: post) = some pre.length := by
  induction pre with
  | nil => simp [findSection, hs]
  | cons p pre ih =>
    have h1 : p.Name ≠ n := hp p (by simp)
    have h2 := ih (fun q hq => hp q (by simp [hq]))
    simp [findSection, h1, h2]

theorem updateAt_append_cons (f : Section → Section) (pre : List Section) (s : Section)
    (post : List Section) : updateAt f pre.length (pre ++ s :: post) = pre ++ f s :: post := by
  induction pre with
  | nil => simp [updateAt]
  | cons p pre ih => simp [updateAt, ih]

theorem getElem?_append_cons {α : Type} (pre : List α) (x : α) (post : List α) :
    (pre ++ x :: post)[pre.length]? = some x := by
  induction pre with
  | nil => simp
  | cons p pre ih => simpa using ih

theorem findKey_eq_none {k : Str} {keys : List KeyVal} :
    findKey k keys = none ↔ ∀ kv ∈ keys, kv.Key ≠ k := by
  induction keys with
  | nil => simp [findKey]
  | cons s rest ih =>
    by_cases h : s.Key = k <;> simp [findKey, h, ih]

theorem findKey_eq_some {k : Str} {keys : List KeyVal} {i : Nat}
    (h : findKey k keys = some i) :
    ∃ pre kv post, keys = pre ++ kv :: post ∧ pre.length = i ∧ kv.Key = k ∧
      ∀ p ∈ pre, p.Key ≠ k := by
  induction keys generalizing i with
  | nil => simp [findKey] at h
  | cons s rest ih =>
    by_cases hs : s.Key = k
    · simp [findKey, hs] at h
      exact ⟨[], s, rest, by simp, by simp [h], hs, by simp⟩
    · simp only [findKey, hs, if_false, Option.map_eq_some'] at h
      obtain ⟨j, hj, rfl⟩ := h
      obtain ⟨pre, t, post, rfl, hl, ht, hp⟩ := ih hj
      refine ⟨s :: pre, t, post, by simp, by simp [hl], ht, ?_⟩
      intro p hp'
      rcases List.mem_cons.mp hp' with rfl | hp'
      · exact hs
      · exact hp p hp'

theorem findKey_append_cons {k : Str} (pre : List KeyVal) (kv : KeyVal) (post : List KeyVal)
    (hp : ∀ p ∈ pre, p.Key ≠ k) (hs : kv.Key = k) :
    findKey k (pre ++ kv :: post) = some pre.length := by
  induction pre with
  | nil => simp [findKey, hs]
  | cons p pre ih =>
    have h1 : p.Key ≠ k := hp p (by simp)
    have h2 := ih (fun q hq => hp q (by simp [hq]))
    simp [findKey, h1, h2]

theorem setValueAt_append_cons (v : Str) (pre : List KeyVal) (kv : KeyVal)
    (post : List KeyVal) :
    setValueAt v pre.length (pre ++ kv :: post) = pre ++ { kv with Value := v } :: post := by
  induction pre with
  | nil => simp [setValueAt]
  | cons p pre ih => simp [setValueAt, ih]

/-- The three shapes of a list of entries with respect to a key. -/
theorem keys_cases (k : Str) (keys : List KeyVal) :
    (findKey k keys = none ∧ ∀ kv ∈ keys, kv.Key ≠ k) ∨
    ∃ pre kv post, keys = pre ++ kv :: post ∧ kv.Key = k ∧ (∀ p ∈ pre, p.Key ≠ k) ∧
      findKey k keys = some pre.length := by
  cases h : findKey k keys with
  | none => exact Or.inl ⟨rfl, findKey_eq_none.mp h⟩
  | some i =>
    obtain ⟨pre, kv, post, rfl, hl, hk, hp⟩ := findKey_eq_some h
    exact Or.inr ⟨pre, kv, post, rfl, hk, hp, by rw [hl]⟩

theorem currentValue_of_absent {keys : List KeyVal} (h : ∀ kv ∈ keys, kv.Key ≠ blackName) :
    currentValue keys = [] := by
  simp [currentValue, findKey_eq_none.mpr h]

theorem currentValue_append_cons (pre : List KeyVal) (kv : KeyVal) (post : List KeyVal)
    (hp : ∀ p ∈ pre, p.Key ≠ blackName) (hk : kv.Key = blackName) :
    currentValue (pre ++ kv :: post) = kv.Value := by
  simp only [currentValue, findKey_append_cons pre kv post hp hk, getElem?_append_cons]
  rfl

/-- What the update does to the entries of a target section. -/
theorem updateKeys_eq (rules : List Str) (keys : List KeyVal) :
    updateKeys rules keys =
      if currentValue keys = ensureBlackList rules (currentValue keys) then (keys, false)
      else (assignKey blackName (ensureBlackList rules (currentValue keys)) keys, true) := by
  unfold updateKeys assignKey
  by_cases h : currentValue keys = ensureBlackList rules (currentValue keys)
  · simp [← h]
  · simp only [ne_eq, h, not_false_eq_true, if_true, if_false]
    cases findKey blackName keys <;> rfl

theorem currentValue_assignKey (v : Str) (keys : List KeyVal) :
    currentValue (assignKey blackName v keys) = v := by
  rcases keys_cases blackName keys with ⟨hn, ha⟩ | ⟨pre, kv, post, rfl, hk, hp, hf⟩
  · simp only [assignKey, hn]
    exact currentValue_append_cons keys ⟨blackName, v⟩ [] ha rfl
  · simp only [assignKey, hf, setValueAt_append_cons]
    exact currentValue_append_cons pre _ post hp hk

theorem currentValue_updateKeys (rules : List Str) (keys : List KeyVal) :
    currentValue (updateKeys rules keys).1 = ensureBlackList rules (currentValue keys) := by
  rw [updateKeys_eq]
  split
  · assumption
  · exact currentValue_assignKey _ _

theorem updateKeys_changed (rules : List Str) (keys : List KeyVal) :
    (updateKeys rules keys).2 = true ↔
      currentValue keys ≠ ensureBlackList rules (currentValue keys) := by
  rw [updateKeys_eq]
  by_cases h : currentValue keys = ensureBlackList rules (currentValue keys)
  · rw [if_pos h]; simp [← h]
  · rw [if_neg h]; simpa using h

theorem updateKeys_unchanged (rules : List Str) (keys : List KeyVal)
    (h : (updateKeys rules keys).2 = false) : (updateKeys rules keys).1 = keys := by
  rw [updateKeys_eq] at h ⊢
  by_cases h' : currentValue keys = ensureBlackList rules (currentValue keys)
  · rw [if_pos h']
  · rw [if_neg h'] at h; simp at h

/-! ### One iteration of the update loop -/

theorem updateTarget_present (rules : List Str) (pre : List Section) (s : Section)
    (post : List Section) (w : Bool) (n : Str)
    (hp : ∀ p ∈ pre, p.Name ≠ n) (hs : s.Name = n) :
    updateTarget rules (pre ++ s :: post, w) n =
      (pre ++ { s with Keys := (updateKeys rules s.Keys).1 } :: post,
       w || (updateKeys rules s.Keys).2) := by
  have hf := findSection_append_cons pre s post hp hs
  unfold updateTarget
  simp only [hf]
  simp only [reduceCtorEq, and_false, if_false]
  simp only [getElem?_append_cons, Option.map_some', Option.getD_some]
  cases hc : (updateKeys rules s.Keys).2
  · have := updateKeys_unchanged rules s.Keys hc
    simp [this]
  · simp [updateAt_append_cons]

theorem updateTarget_absent (rules : List Str) (secs : List Section) (w : Bool) (n : Str)
    (hn : ∀ p ∈ secs, p.Name ≠ n) (hd : n ≠ directoryName) :
    updateTarget rules (secs, w) n = (secs, w) := by
  have hf := findSection_eq_none.mpr hn
  unfold updateTarget
  simp [hf, hd]

theorem updateTarget_create (rules : List Str) (secs : List Section) (w : Bool)
    (hn : ∀ p ∈ secs, p.Name ≠ directoryName) :
    updateTarget rules (secs, w) directoryName =
      (secs ++ [{ Name := directoryName, Keys := (updateKeys rules []).1 }], true) := by
  have hf := findSection_eq_none.mpr hn
  unfold updateTarget
  simp only [hf, getSection, and_self, if_true]
  simp only [getElem?_append_cons, Option.map_some', Option.getD_some]
  cases hc : (updateKeys rules []).2
  · have := updateKeys_unchanged rules [] hc
    simp [this]
  · simp [updateAt_append_cons]

/-! ### First-occurrence deduplication -/

theorem mem_dedupFirst {x : Str} {l : List Str} : x ∈ dedupFirst l ↔ x ∈ l := by
  induction l with
  | nil => simp [dedupFirst]
  | cons a l ih =>
    simp only [dedupFirst, List.mem_cons, List.mem_filter, ih, decide_eq_true_eq]
    by_cases h : x = a <;> simp [h]

theorem dedupFirst_nodup (l : List Str) : (dedupFirst l).Nodup := by
  induction l with
  | nil => simp [dedupFirst]
  | cons a l ih =>
    simp only [dedupFirst, List.nodup_cons, List.mem_filter, decide_eq_true_eq]
    exact ⟨fun h => h.2 rfl, ih.filter _⟩

theorem dedupFirst_snoc (l : List Str) (x : Str) :
    dedupFirst (l ++ [x]) = if x ∈ l then dedupFirst l else dedupFirst l ++ [x] := by
  induction l with
  | nil => simp [dedupFirst]
  | cons a l ih =>
    have e : dedupFirst (a :: l ++ [x]) = a :: (dedupFirst (l ++ [x])).filter (fun y => y ≠ a) := rfl
    have e' : dedupFirst (a :: l) = a :: (dedupFirst l).filter (fun y => y ≠ a) := rfl
    rw [e, e', ih]
    by_cases hx : x ∈ l
    · simp [hx]
    · by_cases hxa : x = a
      · subst hxa; simp [hx, List.filter_append]
      · simp [hx, hxa, List.filter_append]

theorem dedupFirst_of_nodup {l : List Str} (h : l.Nodup) : dedupFirst l = l := by
  induction l with
  | nil => rfl
  | cons a l ih =>
    rw [List.nodup_cons] at h
    simp only [dedupFirst, ih h.2]
    congr 1
    rw [List.filter_eq_self]
    intro y hy
    simp only [decide_eq_true_eq]
    rintro rfl
    exact h.1 hy

/-- Replacing one image in the map of a duplicate-free list. -/
theorem map_replace {α β : Type} (xs : List α) (hnd : xs.Nodup) (F G : α → β) (a : α)
    (pre : List β) (b : β) (post : List β) (key : β → α) (hkey : ∀ x, key (F x) = x)
    (h : xs.map F = pre ++ b :: post) (hb : key b = a) (hG : ∀ x, x ≠ a → G x = F x) :
    xs.map G = pre ++ G a :: post := by
  obtain ⟨xpre, xrest, rfl, hpre, hrest⟩ := List.map_eq_append_iff.mp h
  cases xrest with
  | nil => simp at hrest
  | cons x xpost =>
    simp only [List.map_cons, List.cons.injEq] at hrest
    obtain ⟨hx, hpost⟩ := hrest
    have hxa : x = a := by rw [← hkey x, hx, hb]
    subst hxa
    have hnd' := List.nodup_append.mp hnd
    have h1 : ∀ y ∈ xpre, y ≠ x := fun y hy hyx =>
      hnd'.2.2 hy (by simp [hyx]) 
    have h2 : ∀ y ∈ xpost, y ≠ x := fun y hy hyx =>
      (List.nodup_cons.mp hnd'.2.1).1 (hyx ▸ hy)
    simp only [List.map_append, List.map_cons]
    rw [← hpre, ← hpost]
    congr 1
    · exact List.map_congr_left (fun y hy => hG y (h1 y hy))
    · congr 1
      exact List.map_congr_left (fun y hy => hG y (h2 y hy))

/-! ### The last value and the collapsed entries -/

theorem lastValue_snoc (k k' v : Str) (A : List (Str × Str)) :
    lastValue k' (A ++ [(k, v)]) = if k = k' then v else lastValue k' A := by
  simp only [lastValue, List.reverse_append, List.reverse_cons, List.reverse_nil,
    List.nil_append, List.singleton_append, List.find?_cons]
  by_cases h : k = k' <;> simp [h]

theorem collapse_snoc (A : List (Str × Str)) (k v : Str) :
    collapse (A ++ [(k, v)]) = assignKey k v (collapse A) := by
  have hkeyF : ∀ x : Str, KeyVal.Key ((fun k' => ({ Key := k', Value := lastValue k' A } : KeyVal)) x) = x :=
    fun _ => rfl
  by_cases hk : k ∈ A.map Prod.fst
  · have hmem : k ∈ dedupFirst (A.map Prod.fst) := mem_dedupFirst.mpr hk
    have hfind : findKey k (collapse A) ≠ none := by
      rw [Ne, findKey_eq_none]
      intro hall
      exact hall ⟨k, lastValue k A⟩ (List.mem_map.mpr ⟨k, hmem, rfl⟩) rfl
    obtain ⟨i, hi⟩ := Option.ne_none_iff_exists'.mp hfind
    obtain ⟨pre, kv, post, hdec, hl, hkv, -⟩ := findKey_eq_some hi
    subst hl
    simp only [assignKey, hi]
    rw [hdec, setValueAt_append_cons]
    have := map_replace (dedupFirst (A.map Prod.fst)) (dedupFirst_nodup _)
      (fun k' => ({ Key := k', Value := lastValue k' A } : KeyVal))
      (fun k' => ({ Key := k', Value := lastValue k' (A ++ [(k, v)]) } : KeyVal))
      k pre kv post KeyVal.Key hkeyF hdec hkv
      (fun x hx => by simp [lastValue_snoc, Ne.symm hx])
    simp only [collapse, List.map_append, List.map_cons, List.map_nil, dedupFirst_snoc, hk, if_true]
    rw [this]
    simp [lastValue_snoc, hkv]
  · have hnone : findKey k (collapse A) = none := by
      rw [findKey_eq_none]
      intro kv hkv
      obtain ⟨k', hk', rfl⟩ := List.mem_map.mp hkv
      rintro rfl
      exact hk (mem_dedupFirst.mp hk')
    simp only [assignKey, hnone]
    simp only [collapse, List.map_append, List.map_cons, List.map_nil, dedupFirst_snoc, hk,
      if_false, lastValue_snoc, if_true]
    congr 1
    apply List.map_congr_left
    intro k' hk'
    have : k ≠ k' := by
      rintro rfl
      exact hk (mem_dedupFirst.mp hk')
    simp [this]

/-! ### The parse loop against the data model -/

theorem parseLine_header {l h : Str} (st : ParseState) (hh : headerOf l = some h) :
    parseLine st l =
      { sections := (getSection st.sections h).1, currentSec := some (getSection st.sections h).2 } := by
  simp only [headerOf] at hh
  simp only [parseLine]
  by_cases hc : (hasPrefix (trimSpace l) ['['] && hasSuffix (trimSpace l) [']']) = true
  · simp only [hc, if_true, Option.some.injEq] at hh ⊢
    rw [hh]
  · simp [hc] at hh

theorem parseLine_assign {l k v : Str} (st : ParseState) (hh : headerOf l = none)
    (ha : assignmentOf l = some (k, v)) :
    parseLine st l =
      match st.currentSec with
      | none => st
      | some i =>
        { st with sections :=
            updateAt (fun s => { s with Keys := assignKey k v s.Keys }) i st.sections } := by
  simp only [headerOf] at hh
  simp only [assignmentOf] at ha
  simp only [parseLine]
  by_cases hc : (hasPrefix (trimSpace l) ['['] && hasSuffix (trimSpace l) [']']) = true
  · simp [hc] at hh
  · by_cases he : contains (trimSpace l) ['='] = true
    · rw [if_neg hc, if_pos he] at ha
      rw [if_neg hc, if_pos he]
      simp only [Option.some.injEq, Prod.mk.injEq] at ha
      rw [ha.1, ha.2]
    · simp [hc, he] at ha

theorem parseLine_other {l : Str} (st : ParseState) (hh : headerOf l = none)
    (ha : assignmentOf l = none) : parseLine st l = st := by
  simp only [headerOf] at hh
  simp only [assignmentOf] at ha
  simp only [parseLine]
  by_cases hc : (hasPrefix (trimSpace l) ['['] && hasSuffix (trimSpace l) [']']) = true
  · simp [hc] at hh
  · by_cases he : contains (trimSpace l) ['='] = true
    · simp [hc, he] at ha
    · rw [if_neg hc, if_neg he]

theorem openAfter_snoc (cur : Option Str) (ls : List Str) (l : Str) :
    openAfter cur (ls ++ [l]) =
      match headerOf l with
      | some h => some h
      | none => openAfter cur ls := by
  induction ls generalizing cur with
  | nil => cases hl : headerOf l <;> simp [openAfter, hl]
  | cons a ls ih =>
    rw [List.cons_append]
    cases ha : headerOf a <;> simp only [openAfter, ha, ih]

theorem assignmentsFrom_snoc (n : Str) (cur : Option Str) (ls : List Str) (l : Str) :
    assignmentsFrom n cur (ls ++ [l]) =
      assignmentsFrom n cur ls ++
        match headerOf l with
        | some _ => []
        | none =>
          match assignmentOf l with
          | some kv => if openAfter cur ls = some n then [kv] else []
          | none => [] := by
  induction ls generalizing cur with
  | nil =>
    cases hl : headerOf l with
    | some h => simp [assignmentsFrom, hl]
    | none =>
      cases hb : assignmentOf l with
      | none => simp [assignmentsFrom, hl, hb]
      | some kv => by_cases hc : cur = some n <;> simp [assignmentsFrom, openAfter, hl, hb, hc]
  | cons a ls ih =>
    rw [List.cons_append]
    cases ha : headerOf a with
    | some h => simp only [assignmentsFrom, openAfter, ha, ih]
    | none =>
      cases hb : assignmentOf a with
      | none => simp only [assignmentsFrom, openAfter, ha, hb, ih]
      | some kv =>
        by_cases hc : cur = some n <;>
          simp only [assignmentsFrom, openAfter, ha, hb, hc, ih, if_true, if_false,
            List.cons_append]

theorem assignmentsFrom_eq_nil (n : Str) (cur : Option Str) (ls : List Str)
    (hn : n ∉ ls.filterMap headerOf) (hc : cur ≠ some n) : assignmentsFrom n cur ls = [] := by
  induction ls generalizing cur with
  | nil => rfl
  | cons a ls ih =>
    cases ha : headerOf a with
    | some h =>
      simp only [List.filterMap_cons, ha, List.mem_cons, not_or] at hn
      simp only [assignmentsFrom, ha]
      exact ih (some h) hn.2 (by simpa using Ne.symm hn.1)
    | none =>
      simp only [List.filterMap_cons, ha] at hn
      cases hb : assignmentOf a with
      | none => simp only [assignmentsFrom, ha, hb]; exact ih cur hn hc
      | some kv => simp only [assignmentsFrom, ha, hb, hc, if_false]; exact ih cur hn hc

theorem openAfter_mem (ls : List Str) (h : Str) (ho : openAfter none ls = some h) :
    h ∈ ls.filterMap headerOf := by
  induction ls using List.reverseRecOn with
  | nil => simp [openAfter] at ho
  | append_singleton ls l ih =>
    rw [openAfter_snoc] at ho
    cases hl : headerOf l with
    | some h' =>
      simp only [hl, Option.some.injEq] at ho
      simp [List.filterMap_append, hl, ho]
    | none =>
      simp only [hl] at ho
      simp [List.filterMap_append, hl, ih ho]

theorem parsedForm_names (ls : List Str) :
    (parsedForm ls).map Section.Name = dedupFirst (ls.filterMap headerOf) := by
  simp [parsedForm, Function.comp_def]

theorem findSection_parsedForm {ls : List Str} {h : Str} (hm : h ∈ ls.filterMap headerOf) :
    ∃ i, findSection h (parsedForm ls) = some i := by
  apply Option.ne_none_iff_exists'.mp
  rw [Ne, findSection_eq_none]
  intro hall
  refine hall ⟨h, collapse (assignmentsFrom h none ls)⟩ ?_ rfl
  exact List.mem_map.mpr ⟨h, mem_dedupFirst.mpr hm, rfl⟩

/-- The state of the parse loop after the lines `ls`. -/
theorem parse_loop (ls : List Str) :
    (ls.foldl parseLine { sections := [], currentSec := none }).sections = parsedForm ls ∧
    (ls.foldl parseLine { sections := [], currentSec := none }).currentSec =
      (openAfter none ls).bind (fun h => findSection h (parsedForm ls)) := by
  induction ls using List.reverseRecOn with
  | nil => simp [parsedForm, dedupFirst, openAfter]
  | append_singleton ls l ih =>
    obtain ⟨ihs, ihc⟩ := ih
    rw [List.foldl_append, List.foldl_cons, List.foldl_nil]
    generalize ls.foldl parseLine { sections := [], currentSec := none } = st at ihs ihc
    cases hl : headerOf l with
    | some h =>
      have hpf : parsedForm (ls ++ [l]) = (getSection st.sections h).1 := by
        rw [ihs]
        unfold getSection
        cases hf : findSection h (parsedForm ls) with
        | some i =>
          have hm : h ∈ ls.filterMap headerOf := by
            by_contra hne
            have := (@findSection_eq_none h (parsedForm ls)).mpr (by
              intro s hs
              obtain ⟨n, hn, rfl⟩ := List.mem_map.mp hs
              intro e
              simp only at e
              exact hne (mem_dedupFirst.mp (e ▸ hn)))
            rw [this] at hf; cases hf
          simp only [parsedForm, List.filterMap_append, List.filterMap_cons, hl,
            List.filterMap_nil, dedupFirst_snoc, hm, if_true]
          apply List.map_congr_left
          intro n _
          simp [assignmentsFrom_snoc, hl]
        | none =>
          have hm : h ∉ ls.filterMap headerOf := by
            intro hm
            obtain ⟨i, hi⟩ := findSection_parsedForm hm
            rw [hi] at hf; cases hf
          simp only [parsedForm, List.filterMap_append, List.filterMap_cons, hl,
            List.filterMap_nil, dedupFirst_snoc, hm, if_false, List.map_append, List.map_cons,
            List.map_nil]
          congr 1
          · apply List.map_congr_left
            intro n _
            simp [assignmentsFrom_snoc, hl]
          · simp only [assignmentsFrom_snoc, hl, List.append_nil]
            rw [assignmentsFrom_eq_nil h none ls hm (by simp)]
            rfl
      rw [parseLine_header st hl]
      refine ⟨hpf.symm, ?_⟩
      simp only [openAfter_snoc, hl, Option.some_bind]
      rw [hpf]
      unfold getSection
      cases hf : findSection h st.sections with
      | some i => simp [hf]
      | none =>
        simp only
        rw [findSection_append_cons st.sections _ [] (findSection_eq_none.mp hf) rfl]
    | none =>
      cases ha : assignmentOf l with
      | none =>
        rw [parseLine_other st hl ha]
        have hpf : parsedForm (ls ++ [l]) = parsedForm ls := by
          simp only [parsedForm, List.filterMap_append, List.filterMap_cons, hl,
            List.filterMap_nil, List.append_nil]
          apply List.map_congr_left
          intro n _
          simp [assignmentsFrom_snoc, hl, ha]
        rw [hpf, openAfter_snoc, hl]
        exact ⟨ihs, ihc⟩
      | some kv =>
        obtain ⟨k, v⟩ := kv
        rw [parseLine_assign st hl ha]
        have hnames : (ls ++ [l]).filterMap headerOf = ls.filterMap headerOf := by
          simp [List.filterMap_append, hl]
        cases ho : openAfter none ls with
        | none =>
          rw [ho] at ihc
          simp only [Option.none_bind] at ihc
          have hpf : parsedForm (ls ++ [l]) = parsedForm ls := by
            simp only [parsedForm, hnames]
            apply List.map_congr_left
            intro n _
            simp [assignmentsFrom_snoc, hl, ha, ho]
          simp only [ihc, hpf, openAfter_snoc, hl, ho, Option.none_bind]
          exact ⟨ihs, trivial⟩
        | some m =>
          rw [ho] at ihc
          simp only [Option.some_bind] at ihc
          obtain ⟨i, hi⟩ := findSection_parsedForm (openAfter_mem ls m ho)
          rw [hi] at ihc
          obtain ⟨pre, s, post, hdec, hlen, hsn, -⟩ := findSection_eq_some hi
          subst hlen
          have hpf : parsedForm (ls ++ [l]) =
              pre ++ { Name := m, Keys := assignKey k v (collapse (assignmentsFrom m none ls)) } :: post := by
            have := map_replace (dedupFirst (ls.filterMap headerOf)) (dedupFirst_nodup _)
              (fun n => ({ Name := n, Keys := collapse (assignmentsFrom n none ls) } : Section))
              (fun n => ({ Name := n, Keys := collapse (assignmentsFrom n none (ls ++ [l])) } : Section))
              m pre s post Section.Name (fun _ => rfl) hdec hsn
              (fun x hx => by
                have : ¬ (m = x) := fun e => hx e.symm
                simp [assignmentsFrom_snoc, hl, ha, ho, this])
            simp only [parsedForm, hnames]
            rw [this]
            simp [assignmentsFrom_snoc, hl, ha, ho, collapse_snoc]
          have hs : s = { Name := m, Keys := collapse (assignmentsFrom m none ls) } := by
            have hmem : s ∈ parsedForm ls := by rw [hdec]; simp
            obtain ⟨n, _, rfl⟩ := List.mem_map.mp hmem
            simp only at hsn
            rw [hsn]
          simp only [ihc, ihs, openAfter_snoc, hl, ho, Option.some_bind]
          rw [hdec, updateAt_append_cons, hpf]
          refine ⟨by rw [hs], ?_⟩
          rw [hdec] at hi
          have hp : ∀ p ∈ pre, p.Name ≠ m := by
            obtain ⟨pre', s', post', hdec', hlen', _, hp'⟩ := findSection_eq_some hi
            have h1 := List.append_inj_left hdec' hlen'.symm
            rw [h1]; exact hp'
          rw [findSection_append_cons pre _ post hp rfl]

theorem parse_eq (content : Str) : parse content = parsedForm (splitLines content) :=
  (parse_loop (splitLines content)).1

theorem parse_names (content : Str) :
    (parse content).map Section.Name = inputSectionNames content := by
  rw [parse_eq, parsedForm_names]; rfl

theorem parse_nodup (content : Str) : ((parse content).map Section.Name).Nodup := by
  rw [parse_names]; exact dedupFirst_nodup _

/-! ### The update loop on sections with distinct names -/

theorem directory_ne_common : directoryName ≠ commonName := by decide

theorem refresh_name (rules : List Str) (s : Section) : (refresh rules s).Name = s.Name := rfl

theorem split_of_mem_names {secs : List Section} {n : Str} (h : n ∈ secs.map Section.Name) :
    ∃ pre s post, secs = pre ++ s :: post ∧ s.Name = n ∧ ∀ p ∈ pre, p.Name ≠ n := by
  have hf : findSection n secs ≠ none := by
    rw [Ne, findSection_eq_none]
    intro hall
    obtain ⟨s, hs, hsn⟩ := List.mem_map.mp h
    exact hall s hs hsn
  obtain ⟨i, hi⟩ := Option.ne_none_iff_exists'.mp hf
  obtain ⟨pre, s, post, hdec, -, hs, hp⟩ := findSection_eq_some hi
  exact ⟨pre, s, post, hdec, hs, hp⟩

theorem map_only_named (f : Section → Section) (n : Str) (secs : List Section)
    (h : ∀ p ∈ secs, p.Name ≠ n) :
    secs.map (fun s => if s.Name = n then f s else s) = secs := by
  conv_rhs => rw [← List.map_id secs]
  apply List.map_congr_left
  intro s hs
  simp [h s hs]

theorem any_only_named (g : Section → Bool) (n : Str) (secs : List Section)
    (h : ∀ p ∈ secs, p.Name ≠ n) :
    secs.any (fun s => decide (s.Name = n) && g s) = false := by
  rw [List.any_eq_false]
  intro s hs
  simp [h s hs]

theorem updateTarget_of_mem (rules : List Str) (secs : List Section) (w : Bool) (n : Str)
    (hnd : (secs.map Section.Name).Nodup) (hm : n ∈ secs.map Section.Name) :
    updateTarget rules (secs, w) n =
      (secs.map (fun s => if s.Name = n then refresh rules s else s),
       w || secs.any (fun s => decide (s.Name = n) && (updateKeys rules s.Keys).2)) := by
  obtain ⟨pre, s, post, rfl, hs, hp⟩ := split_of_mem_names hm
  subst hs
  have hs : s.Name = s.Name := rfl
  rw [updateTarget_present rules pre s post w s.Name hp hs]
  have hpost : ∀ p ∈ post, p.Name ≠ s.Name := by
    intro p hpm hpn
    simp only [List.map_append, List.map_cons] at hnd
    have h1 := (List.nodup_append.mp hnd).2.1
    rw [List.nodup_cons] at h1
    exact h1.1 (List.mem_map.mpr ⟨p, hpm, hpn⟩)
  simp only [List.map_append, List.map_cons, List.any_append, List.any_cons,
    map_only_named _ _ pre hp, map_only_named _ _ post hpost,
    any_only_named _ _ pre hp, any_only_named _ _ post hpost, if_true]
  simp [refresh]

theorem updateTarget_of_not_mem (rules : List Str) (secs : List Section) (w : Bool) (n : Str)
    (hm : n ∉ secs.map Section.Name) (hd : n ≠ directoryName) :
    updateTarget rules (secs, w) n =
      (secs.map (fun s => if s.Name = n then refresh rules s else s),
       w || secs.any (fun s => decide (s.Name = n) && (updateKeys rules s.Keys).2)) := by
  have hp : ∀ p ∈ secs, p.Name ≠ n := fun p hp hpn => hm (List.mem_map.mpr ⟨p, hp, hpn⟩)
  rw [updateTarget_absent rules secs w n hp hd, map_only_named _ n secs hp,
    any_only_named _ n secs hp]
  simp

/-- The sections that enter the `black_name` update: the parsed ones, and an
empty `Directory` section at the end when there was none. -/
theorem update_eq (rules : List Str) (secs : List Section)
    (hnd : (secs.map Section.Name).Nodup) :
    update rules secs =
      ((if directoryName ∈ secs.map Section.Name then secs
          else secs ++ [{ Name := directoryName, Keys := [] }]).map
        (fun s => if isTargetSection s.Name then refresh rules s else s),
       decide (directoryName ∉ secs.map Section.Name) ||
         secs.any (fun s => isTargetSection s.Name && (updateKeys rules s.Keys).2)) := by
  have hmapcomp : ∀ l : List Section,
      (l.map (fun s => if s.Name = directoryName then refresh rules s else s)).map
        (fun s => if s.Name = commonName then refresh rules s else s)
      = l.map (fun s => if isTargetSection s.Name then refresh rules s else s) := by
    intro l
    rw [List.map_map]
    apply List.map_congr_left
    intro s _
    by_cases h1 : s.Name = directoryName
    · have h2 : s.Name ≠ commonName := fun h => directory_ne_common (h1.symm.trans h)
      simp [isTargetSection, h1, h2, refresh_name, directory_ne_common]
    · by_cases h2 : s.Name = commonName
      · simp [isTargetSection, h1, h2, directory_ne_common.symm]
      · simp [isTargetSection, h1, h2]
  have hnames : ∀ l : List Section,
      (l.map (fun s => if s.Name = directoryName then refresh rules s else s)).map Section.Name
        = l.map Section.Name := by
    intro l
    rw [List.map_map]
    apply List.map_congr_left
    intro s _
    by_cases h1 : s.Name = directoryName <;> simp [h1, refresh_name]
  have hany : ∀ l : List Section,
      (l.map (fun s => if s.Name = directoryName then refresh rules s else s)).any
        (fun s => decide (s.Name = commonName) && (updateKeys rules s.Keys).2)
      = l.any (fun s => decide (s.Name = commonName) && (updateKeys rules s.Keys).2) := by
    intro l
    rw [List.any_map]
    congr 1
    funext s
    by_cases h1 : s.Name = directoryName
    · have h2 : s.Name ≠ commonName := fun h => directory_ne_common (h1.symm.trans h)
      simp [h1, h2, refresh_name, directory_ne_common]
    · simp [h1]
  have hanyor : ∀ l : List Section,
      (l.any (fun s => decide (s.Name = directoryName) && (updateKeys rules s.Keys).2) ||
        l.any (fun s => decide (s.Name = commonName) && (updateKeys rules s.Keys).2))
      = l.any (fun s => isTargetSection s.Name && (updateKeys rules s.Keys).2) := by
    intro l
    induction l with
    | nil => rfl
    | cons a l ih =>
      have hpt : (decide (a.Name = directoryName) && (updateKeys rules a.Keys).2 ||
          decide (a.Name = commonName) && (updateKeys rules a.Keys).2)
          = (isTargetSection a.Name && (updateKeys rules a.Keys).2) := by
        by_cases h1 : a.Name = directoryName <;> by_cases h2 : a.Name = commonName <;>
          simp [isTargetSection, h1, h2]
      simp only [List.any_cons]
      rw [← ih, ← hpt]
      generalize (decide (a.Name = directoryName) && (updateKeys rules a.Keys).2) = x
      generalize (decide (a.Name = commonName) && (updateKeys rules a.Keys).2) = y
      generalize l.any (fun s => decide (s.Name = directoryName) && (updateKeys rules s.Keys).2) = z
      generalize l.any (fun s => decide (s.Name = commonName) && (updateKeys rules s.Keys).2) = t
      cases x <;> cases y <;> cases z <;> cases t <;> rfl
  unfold update targetSections
  simp only [List.foldl_cons, List.foldl_nil]
  by_cases hd : directoryName ∈ secs.map Section.Name
  · rw [updateTarget_of_mem rules secs false directoryName hnd hd]
    have hnd' := hnd
    rw [← hnames secs] at hnd'
    by_cases hc : commonName ∈ secs.map Section.Name
    · rw [updateTarget_of_mem rules _ _ commonName hnd' (by rw [hnames]; exact hc)]
      simp only [hmapcomp, hany, hd, if_true, not_true_eq_false, decide_False, Bool.false_or,
        hanyor]
    · rw [updateTarget_of_not_mem rules _ _ commonName (by rw [hnames]; exact hc)
        directory_ne_common.symm]
      simp only [hmapcomp, hany, hd, if_true, not_true_eq_false, decide_False, Bool.false_or,
        hanyor]
  · have hp : ∀ p ∈ secs, p.Name ≠ directoryName :=
      fun p hp hpn => hd (List.mem_map.mpr ⟨p, hp, hpn⟩)
    rw [updateTarget_create rules secs false hp]
    have hnd1 : ((secs ++ [({ Name := directoryName, Keys := (updateKeys rules []).1 } : Section)]).map
        Section.Name).Nodup := by
      simp only [List.map_append, List.map_cons, List.map_nil]
      rw [List.nodup_append]
      refine ⟨hnd, by simp, ?_⟩
      intro a ha hb
      simp only [List.mem_singleton] at hb
      exact hd (hb ▸ ha)
    have hfin : (secs ++ [({ Name := directoryName, Keys := (updateKeys rules []).1 } : Section)]).map
          (fun s => if s.Name = commonName then refresh rules s else s)
        = (secs ++ [({ Name := directoryName, Keys := [] } : Section)]).map
          (fun s => if isTargetSection s.Name then refresh rules s else s) := by
      simp only [List.map_append, List.map_cons, List.map_nil]
      congr 1
      · apply List.map_congr_left
        intro s hs
        have h1 : s.Name ≠ directoryName := hp s hs
        by_cases h2 : s.Name = commonName <;> simp [isTargetSection, h1, h2]
    by_cases hc : commonName ∈ (secs ++ [({ Name := directoryName, Keys := (updateKeys rules []).1 } : Section)]).map Section.Name
    · rw [updateTarget_of_mem rules _ _ commonName hnd1 hc, hfin]
      simp [hd]
    · rw [updateTarget_of_not_mem rules _ _ commonName hc directory_ne_common.symm, hfin]
      simp [hd]

/-! ### The reconstructed text -/

theorem foldl_render_keys (keys : List KeyVal) (sb : Str) :
    keys.foldl (fun sb kv => sb ++ (kv.Key ++ '=' :: kv.Value ++ ['\n'])) sb
      = sb ++ (keys.map (fun kv => kv.Key ++ '=' :: kv.Value ++ ['\n'])).flatten := by
  induction keys generalizing sb with
  | nil => simp
  | cons kv keys ih => rw [List.foldl_cons, ih]; simp

theorem reconstruct_eq (secs : List Section) :
    reconstruct secs = (secs.map renderSection).flatten := by
  have h : ∀ (l : List Section) (sb : Str),
      l.foldl (fun sb sec =>
        let sb := sb ++ ('[' :: sec.Name ++ [']', '\n'])
        let sb := sec.Keys.foldl (fun sb kv => sb ++ (kv.Key ++ '=' :: kv.Value ++ ['\n'])) sb
        sb ++ ['\n']) sb = sb ++ (l.map renderSection).flatten := by
    intro l
    induction l with
    | nil => simp
    | cons s l ih =>
      intro sb
      rw [List.foldl_cons, ih]
      dsimp only
      rw [foldl_render_keys]
      simp [renderSection]
  simpa [reconstruct] using h secs []

theorem reconstruct_append (xs ys : List Section) :
    reconstruct (xs ++ ys) = reconstruct xs ++ reconstruct ys := by
  simp [reconstruct_eq]

theorem value_infix_reconstruct {secs : List Section} {sec : Section} {kv : KeyVal}
    (hs : sec ∈ secs) (hk : kv ∈ sec.Keys) : kv.Value <:+: reconstruct secs := by
  rw [reconstruct_eq]
  have h1 : renderSection sec <:+: (secs.map renderSection).flatten :=
    List.infix_of_mem_flatten (List.mem_map.mpr ⟨sec, hs, rfl⟩)
  have h2 : (kv.Key ++ '=' :: kv.Value ++ ['\n']) <:+:
      (sec.Keys.map (fun kv => kv.Key ++ '=' :: kv.Value ++ ['\n'])).flatten :=
    List.infix_of_mem_flatten (List.mem_map.mpr ⟨kv, hk, rfl⟩)
  have h3 : kv.Value <:+: (kv.Key ++ '=' :: kv.Value ++ ['\n']) :=
    ⟨kv.Key ++ ['='], ['\n'], by simp⟩
  have h4 : (sec.Keys.map (fun kv => kv.Key ++ '=' :: kv.Value ++ ['\n'])).flatten <:+:
      renderSection sec :=
    ⟨'[' :: sec.Name ++ [']', '\n'], ['\n'], by simp [renderSection]⟩
  exact ((h3.trans h2).trans h4).trans h1

theorem currentValue_mem (keys : List KeyVal) :
    currentValue keys = [] ∨ ∃ kv ∈ keys, kv.Value = currentValue keys := by
  rcases keys_cases blackName keys with ⟨-, ha⟩ | ⟨pre, kv, post, rfl, hk, hp, -⟩
  · exact Or.inl (currentValue_of_absent ha)
  · exact Or.inr ⟨kv, by simp, (currentValue_append_cons pre kv post hp hk).symm⟩

/-! ### The tokens and `ensureBlackList` -/

theorem token_ne_nil : ∀ d ∈ defaultIgnoreDirs, d ≠ [] := by decide

theorem bare_of_quoted {d v : Str} (h : quoted d <:+: v) : d <:+: v :=
  List.IsInfix.trans ⟨['"'], ['"'], by simp [quoted]⟩ h

theorem ensureBlackList_extends (rules : List Str) (current : Str) :
    current <+: ensureBlackList rules current := by
  rw [ensureBlackList_eq]
  split
  · exact List.prefix_refl _
  · split
    · exact List.prefix_append _ _
    · rw [List.append_assoc]; exact List.prefix_append _ _

theorem quoted_infix_intercalate {d : Str} {l : List Str} (sep : Str) (h : d ∈ l) :
    quoted d <:+: sep.intercalate (l.map quoted) := by
  induction l with
  | nil => simp at h
  | cons a l ih =>
    cases l with
    | nil =>
      simp only [List.mem_singleton] at h
      subst h
      simp [List.intercalate]
    | cons b l =>
      rcases List.mem_cons.mp h with rfl | h'
      · exact ⟨[], sep ++ sep.intercalate ((b :: l).map quoted), by
          simp [List.intercalate, List.intersperse]⟩
      · have := ih h'
        refine this.trans ⟨quoted a ++ sep, [], ?_⟩
        simp [List.intercalate, List.intersperse]

/-- Every token is in the new value: bare when it was in the old one,
quoted when it was not. -/
theorem ensureBlackList_has (rules : List Str) (current d : Str) (hd : d ∈ rules) :
    d <:+: ensureBlackList rules current ∧
      (quoted d <:+: ensureBlackList rules current ∨ d <:+: current) := by
  by_cases hc : d <:+: current
  · exact ⟨hc.trans (ensureBlackList_extends rules current).isInfix, Or.inr hc⟩
  · have hq : ¬ quoted d <:+: current := fun h => hc (bare_of_quoted h)
    have hmem : d ∈ rules.filter
        (fun d => !contains current (quoted d) && !contains current d) := by
      rw [List.mem_filter]
      refine ⟨hd, ?_⟩
      have h1 : contains current (quoted d) = false := by
        rw [← Bool.not_eq_true, contains_iff]; exact hq
      have h2 : contains current d = false := by
        rw [← Bool.not_eq_true, contains_iff]; exact hc
      simp [h1, h2]
    have hne : rules.filter
        (fun d => !contains current (quoted d) && !contains current d) ≠ [] :=
      List.ne_nil_of_mem hmem
    have hq' : quoted d <:+: ensureBlackList rules current := by
      rw [ensureBlackList_eq, if_neg hne]
      exact (quoted_infix_intercalate _ hmem).trans ⟨_, [], by rw [List.append_nil]⟩
    exact ⟨bare_of_quoted hq', Or.inl hq'⟩

theorem ensureBlackList_fixed (rules : List Str) (current : Str)
    (h : ∀ d ∈ rules, quoted d <:+: current ∨ d <:+: current) :
    ensureBlackList rules current = current := by
  rw [ensureBlackList_eq, if_pos]
  rw [List.filter_eq_nil_iff]
  intro d hd
  have hc : contains current d = true :=
    (contains_iff _ _).mpr ((h d hd).elim bare_of_quoted id)
  simp [hc]

/-! ### The merge as a whole -/

theorem merge_of_unchanged {content : Str}
    (h : (update defaultIgnoreDirs (parse content)).2 = false) :
    merge content = (content, false) ∧ ensureFileHasRules defaultIgnoreDirs content = none := by
  have : ensureFileHasRules defaultIgnoreDirs content = none := by simp [ensureFileHasRules, h]
  exact ⟨by simp [merge, mergeWith, this], this⟩

theorem merge_of_changed {content : Str}
    (h : (update defaultIgnoreDirs (parse content)).2 = true) :
    merge content = (reconstruct (mergedSections content), true) := by
  simp [merge, mergeWith, ensureFileHasRules, h, mergedSections]

theorem merge_changed_iff (content : Str) :
    (merge content).2 = true ↔ (update defaultIgnoreDirs (parse content)).2 = true := by
  cases h : (update defaultIgnoreDirs (parse content)).2
  · simp [(merge_of_unchanged h).1]
  · simp [merge_of_changed h]

theorem merge_text_of_changed {content : Str} (h : (merge content).2 = true) :
    (merge content).1 = reconstruct (mergedSections content) := by
  rw [merge_of_changed ((merge_changed_iff content).mp h)]

theorem mergedSections_eq (content : Str) :
    mergedSections content =
      (if directoryName ∈ inputSectionNames content then parse content
          else parse content ++ [{ Name := directoryName, Keys := [] }]).map
        (fun s => if isTargetSection s.Name then refresh defaultIgnoreDirs s else s) := by
  rw [mergedSections, update_eq _ _ (parse_nodup content), parse_names]

theorem changed_eq (content : Str) :
    (update defaultIgnoreDirs (parse content)).2 =
      (decide (directoryName ∉ inputSectionNames content) ||
        (parse content).any
          (fun s => isTargetSection s.Name && (updateKeys defaultIgnoreDirs s.Keys).2)) := by
  rw [update_eq _ _ (parse_nodup content), parse_names]

/-- Every target section after the update carries `ensureBlackList` of some value. -/
theorem mergedSections_target {content : Str} {sec : Section}
    (hs : sec ∈ mergedSections content) (ht : sec.Name = directoryName ∨ sec.Name = commonName) :
    ∃ old, currentValue sec.Keys = ensureBlackList defaultIgnoreDirs old ∧
      (old = [] ∨ old = inputValue content sec.Name) := by
  rw [mergedSections_eq] at hs
  obtain ⟨s, hsm, rfl⟩ := List.mem_map.mp hs
  have hts : isTargetSection s.Name = true := by
    by_cases h : isTargetSection s.Name = true
    · exact h
    · simp only [h] at ht
      simp only [isTargetSection, decide_eq_true_eq] at h
      exact absurd ht h
  simp only [hts, if_true, refresh, currentValue_updateKeys]
  refine ⟨currentValue s.Keys, rfl, ?_⟩
  by_cases hd : directoryName ∈ inputSectionNames content
  · simp only [hd, if_true] at hsm
    right
    have hfind : (parse content).find? (fun t => t.Name = s.Name) = some s := by
      have hnd := parse_nodup content
      obtain ⟨pre, s', post, hdec, hs', hp⟩ :=
        split_of_mem_names (List.mem_map.mpr ⟨s, hsm, rfl⟩)
      have hmem' : s' ∈ parse content := by rw [hdec]; simp
      have : s' = s := List.inj_on_of_nodup_map hnd hmem' hsm hs'
      subst this
      rw [hdec, List.find?_append, List.find?_eq_none.mpr (by simpa using hp)]
      simp
    simp [inputValue, hfind]
  · simp only [hd, if_false, List.mem_append, List.mem_singleton] at hsm
    rcases hsm with hsm | rfl
    · right
      have hfind : (parse content).find? (fun t => t.Name = s.Name) = some s := by
        have hnd := parse_nodup content
        obtain ⟨pre, s', post, hdec, hs', hp⟩ :=
          split_of_mem_names (List.mem_map.mpr ⟨s, hsm, rfl⟩)
        have hmem' : s' ∈ parse content := by rw [hdec]; simp
        have : s' = s := List.inj_on_of_nodup_map hnd hmem' hsm hs'
        subst this
        rw [hdec, List.find?_append, List.find?_eq_none.mpr (by simpa using hp)]
        simp
      simp [inputValue, hfind]
    · left; rfl

theorem directory_mem_mergedSections (content : Str) :
    directoryName ∈ (mergedSections content).map Section.Name := by
  rw [mergedSections_eq, List.map_map]
  have hn : (Section.Name ∘ fun s => if isTargetSection s.Name then refresh defaultIgnoreDirs s else s)
      = Section.Name := by
    funext s
    by_cases h : isTargetSection s.Name = true <;> simp [h, refresh_name]
  rw [hn]
  by_cases hd : directoryName ∈ inputSectionNames content
  · simp only [hd, if_true]; rw [parse_names]; exact hd
  · simp [hd]

/-! ### What the update leaves in place -/

theorem assignKey_keys (k v : Str) (keys : List KeyVal) :
    (assignKey k v keys).map KeyVal.Key =
      keys.map KeyVal.Key ++ (if k ∈ keys.map KeyVal.Key then [] else [k]) := by
  rcases keys_cases k keys with ⟨hn, ha⟩ | ⟨pre, kv, post, rfl, hk, hp, hf⟩
  · have : k ∉ keys.map KeyVal.Key := by
      intro hm
      obtain ⟨kv, hkv, hkk⟩ := List.mem_map.mp hm
      exact ha kv hkv hkk
    simp [assignKey, hn, this]
  · have : k ∈ (pre ++ kv :: post).map KeyVal.Key := by simp [hk]
    simp only [assignKey, hf, setValueAt_append_cons, this, if_true, List.append_nil]
    simp

theorem assignKey_other {k v : Str} {keys : List KeyVal} {kv : KeyVal}
    (hm : kv ∈ assignKey k v keys) (hne : kv.Key ≠ k) : kv ∈ keys := by
  rcases keys_cases k keys with ⟨hn, -⟩ | ⟨pre, kv', post, rfl, hk, -, hf⟩
  · simp only [assignKey, hn, List.mem_append, List.mem_singleton] at hm
    rcases hm with hm | rfl
    · exact hm
    · exact absurd rfl hne
  · simp only [assignKey, hf, setValueAt_append_cons, List.mem_append, List.mem_cons] at hm
    rcases hm with hm | rfl | hm
    · simp [hm]
    · exact absurd hk hne
    · simp [hm]

theorem ensureBlackList_nil_ne : ensureBlackList defaultIgnoreDirs [] ≠ [] := by decide

theorem refresh_keys (keys : List KeyVal) :
    (updateKeys defaultIgnoreDirs keys).1.map KeyVal.Key =
      keys.map KeyVal.Key ++ (if blackName ∈ keys.map KeyVal.Key then [] else [blackName]) := by
  rw [updateKeys_eq]
  split
  · rename_i heq
    have : blackName ∈ keys.map KeyVal.Key := by
      by_contra hne
      have ha : ∀ kv ∈ keys, kv.Key ≠ blackName :=
        fun kv hkv hk => hne (List.mem_map.mpr ⟨kv, hkv, hk⟩)
      rw [currentValue_of_absent ha] at heq
      exact ensureBlackList_nil_ne heq.symm
    simp [this]
  · exact assignKey_keys _ _ _

theorem refresh_other {keys : List KeyVal} {kv : KeyVal}
    (hm : kv ∈ (updateKeys defaultIgnoreDirs keys).1) (hne : kv.Key ≠ blackName) :
    kv ∈ keys := by
  rw [updateKeys_eq] at hm
  split at hm
  · exact hm
  · exact assignKey_other hm hne

theorem collapse_keys (A : List (Str × Str)) :
    (collapse A).map KeyVal.Key = dedupFirst (A.map Prod.fst) := by
  simp [collapse, Function.comp_def]

theorem collapse_value {A : List (Str × Str)} {kv : KeyVal} (h : kv ∈ collapse A) :
    kv.Value = lastValue kv.Key A := by
  obtain ⟨k, -, rfl⟩ := List.mem_map.mp h
  rfl

theorem mem_dedupFirst_fst_iff {A : List (Str × Str)} {k : Str} :
    k ∈ dedupFirst (A.map Prod.fst) ↔ k ∈ A.map Prod.fst := mem_dedupFirst

/-- The sections that enter the update, with their entries as the data model has them. -/
theorem pre_update_keys {content : Str} {s : Section}
    (hs : s ∈ (if directoryName ∈ inputSectionNames content then parse content
          else parse content ++ [{ Name := directoryName, Keys := [] }])) :
    s.Keys = collapse (inputAssignments content s.Name) := by
  have hparse : ∀ t ∈ parse content, t.Keys = collapse (inputAssignments content t.Name) := by
    intro t ht
    rw [parse_eq] at ht
    obtain ⟨n, -, rfl⟩ := List.mem_map.mp ht
    rfl
  by_cases hd : directoryName ∈ inputSectionNames content
  · rw [if_pos hd] at hs
    exact hparse s hs
  · rw [if_neg hd, List.mem_append, List.mem_singleton] at hs
    rcases hs with hs | rfl
    · exact hparse s hs
    · have : inputAssignments content directoryName = [] := by
        apply assignmentsFrom_eq_nil
        · intro hm
          exact hd (mem_dedupFirst.mpr hm)
        · simp
      simp only [this]
      rfl

/-! ### White space and lines -/

theorem trimSpace_eq (s : Str) :
    trimSpace s = (s.dropWhile isSpace).rdropWhile isSpace := rfl

theorem mem_of_mem_trimSpace {c : Char} {s : Str} (h : c ∈ trimSpace s) : c ∈ s := by
  rw [trimSpace_eq] at h
  exact (List.dropWhile_sublist _).subset
    ((List.rdropWhile_prefix isSpace _).sublist.subset h)

theorem trimSpace_fixed_iff (s : Str) :
    trimSpace s = s ↔
      (∀ c ∈ s.head?, isSpace c = false) ∧ (∀ c ∈ s.getLast?, isSpace c = false) := by
  constructor
  · intro h
    have hd : s.dropWhile isSpace = s := by
      have h1 : s <+: s.dropWhile isSpace := by
        conv_lhs => rw [← h, trimSpace_eq]
        exact List.rdropWhile_prefix isSpace _
      have h2 : s.dropWhile isSpace <:+ s := List.dropWhile_suffix _
      exact (h1.eq_of_length_le h2.length_le).symm
    have hr : s.rdropWhile isSpace = s := by
      rw [trimSpace_eq, hd] at h; exact h
    constructor
    · intro c hc
      cases s with
      | nil => simp at hc
      | cons a l =>
        simp only [List.head?_cons, Option.mem_def, Option.some.injEq] at hc
        subst hc
        have := List.dropWhile_eq_self_iff.mp hd (by simp)
        simpa using this
    · intro c hc
      by_cases hs : s = []
      · subst hs; simp at hc
      · have := List.rdropWhile_eq_self_iff.mp hr hs
        rw [List.getLast?_eq_getLast _ hs] at hc
        simp only [Option.mem_def, Option.some.injEq] at hc
        rw [← hc]
        simpa using this
  · rintro ⟨h1, h2⟩
    have hd : s.dropWhile isSpace = s := by
      rw [List.dropWhile_eq_self_iff]
      intro hl
      cases s with
      | nil => simp at hl
      | cons a l => simpa using h1 a (by simp)
    have hr : s.rdropWhile isSpace = s := by
      rw [List.rdropWhile_eq_self_iff]
      intro hl
      have := h2 (s.getLast hl) (by rw [List.getLast?_eq_getLast _ hl]; rfl)
      simpa using this
    rw [trimSpace_eq, hd, hr]

theorem trimSpace_idem (s : Str) : trimSpace (trimSpace s) = trimSpace s := by
  rw [trimSpace_fixed_iff]
  constructor
  · intro c hc
    rw [trimSpace_eq] at hc
    -- the head of a non-empty prefix of `dropWhile` is the head of `dropWhile`
    obtain ⟨t, ht⟩ := List.rdropWhile_prefix isSpace (s.dropWhile isSpace)
    cases hr : (s.dropWhile isSpace).rdropWhile isSpace with
    | nil => rw [hr] at hc; simp at hc
    | cons a l =>
      rw [hr] at hc ht
      simp only [List.head?_cons, Option.mem_def, Option.some.injEq] at hc
      subst hc
      have hne : s.dropWhile isSpace ≠ [] := by rw [← ht]; simp
      have := List.head_dropWhile_not isSpace s hne
      have hh : (s.dropWhile isSpace).head hne = a := by
        simp only [← ht, List.cons_append, List.head_cons]
      rw [hh] at this
      simpa using this
  · intro c hc
    rw [trimSpace_eq] at hc
    by_cases hne : (s.dropWhile isSpace).rdropWhile isSpace = []
    · rw [hne] at hc; simp at hc
    · have := List.rdropWhile_last_not isSpace (s.dropWhile isSpace) hne
      rw [List.getLast?_eq_getLast _ hne] at hc
      simp only [Option.mem_def, Option.some.injEq] at hc
      rw [← hc]
      simpa using this

theorem splitLines_ne_nil (s : Str) : splitLines s ≠ [] := by
  cases s with
  | nil => simp [splitLines]
  | cons c cs =>
    simp only [splitLines]
    split
    · simp
    · split <;> simp

theorem splitLines_no_newline (s : Str) : ∀ l ∈ splitLines s, '\n' ∉ l := by
  induction s with
  | nil => simp [splitLines]
  | cons c cs ih =>
    simp only [splitLines]
    by_cases hc : c = '\n'
    · simp only [hc, if_true, List.mem_cons]
      rintro l (rfl | hl)
      · simp
      · exact ih l hl
    · simp only [hc, if_false]
      cases hs : splitLines cs with
      | nil => exact absurd hs (splitLines_ne_nil cs)
      | cons l ls =>
        rw [hs] at ih
        simp only [List.mem_cons]
        rintro l' (rfl | hl')
        · intro hm
          rcases List.mem_cons.mp hm with h | h
          · exact hc h.symm
          · exact ih l (by simp) h
        · exact ih l' (by simp [hl'])

theorem splitLines_line (l rest : Str) (hl : '\n' ∉ l) :
    splitLines (l ++ '\n' :: rest) = l :: splitLines rest := by
  induction l with
  | nil => simp [splitLines]
  | cons c cs ih =>
    have hc : c ≠ '\n' := fun h => hl (by simp [h])
    have hcs : '\n' ∉ cs := fun h => hl (by simp [h])
    rw [List.cons_append]
    simp only [splitLines, hc, if_false]
    rw [ih hcs]

theorem splitLines_lines (ls : List Str) (rest : Str) (h : ∀ l ∈ ls, '\n' ∉ l) :
    splitLines ((ls.map (fun l => l ++ ['\n'])).flatten ++ rest) = ls ++ splitLines rest := by
  induction ls with
  | nil => simp
  | cons l ls ih =>
    simp only [List.map_cons, List.flatten_cons, List.append_assoc, List.singleton_append,
      List.cons_append, List.nil_append]
    rw [splitLines_line _ _ (h l (by simp)), ih (fun l' hl' => h l' (by simp [hl']))]

/-! ### Reading a line -/

theorem getLast?_snoc (l : Str) (c : Char) : (l ++ [c]).getLast? = some c := by
  simp [List.getLast?_append]

theorem head?_pair (k v : Str) :
    (k ++ '=' :: v).head? = (match k.head? with | some a => some a | none => some '=') := by
  cases k <;> rfl

theorem getLast?_pair (k v : Str) :
    (k ++ '=' :: v).getLast? = (match v.getLast? with | some a => some a | none => some '=') := by
  rcases List.eq_nil_or_concat v with rfl | ⟨init, c, rfl⟩
  · exact getLast?_snoc k '='
  · rw [List.concat_eq_append]
    have e : k ++ '=' :: (init ++ [c]) = (k ++ '=' :: init) ++ [c] := by simp
    rw [e, getLast?_snoc, getLast?_snoc]

theorem hasPrefix_bracket (t : Str) : hasPrefix t ['['] = true ↔ t.head? = some '[' := by
  cases t with
  | nil => simp [hasPrefix, List.isPrefixOf]
  | cons a l =>
    simp only [hasPrefix, List.isPrefixOf, Bool.and_true, beq_iff_eq, List.head?_cons,
      Option.some.injEq]
    exact eq_comm

theorem hasSuffix_bracket (t : Str) : hasSuffix t [']'] = true ↔ t.getLast? = some ']' := by
  rw [hasSuffix_iff]
  constructor
  · rintro ⟨pre, rfl⟩
    exact getLast?_snoc pre ']'
  · intro h
    rcases List.eq_nil_or_concat t with rfl | ⟨init, c, rfl⟩
    · simp at h
    · rw [List.concat_eq_append] at h ⊢
      rw [getLast?_snoc, Option.some.injEq] at h
      exact ⟨init, by rw [h]⟩

theorem headerOf_eq_some_iff (l n : Str) :
    headerOf l = some n ↔
      (trimSpace l).head? = some '[' ∧ (trimSpace l).getLast? = some ']' ∧
        n = slice (trimSpace l) 1 ((trimSpace l).length - 1) := by
  simp only [headerOf]
  by_cases h1 : hasPrefix (trimSpace l) ['['] = true
  · by_cases h2 : hasSuffix (trimSpace l) [']'] = true
    · simp only [h1, h2, Bool.and_self, if_true, Option.some.injEq]
      rw [hasPrefix_bracket] at h1
      rw [hasSuffix_bracket] at h2
      simp [h1, h2, eq_comm]
    · simp only [h1, h2, Bool.and_false, Bool.false_eq_true, if_false]
      rw [hasSuffix_bracket] at h2
      simp [h2]
  · simp only [h1, Bool.false_and, Bool.false_eq_true, if_false]
    rw [hasPrefix_bracket] at h1
    simp [h1]

theorem headerOf_eq_none_iff (l : Str) :
    headerOf l = none ↔
      ¬ ((trimSpace l).head? = some '[' ∧ (trimSpace l).getLast? = some ']') := by
  simp only [headerOf]
  by_cases h1 : hasPrefix (trimSpace l) ['['] = true
  · by_cases h2 : hasSuffix (trimSpace l) [']'] = true
    · simp only [h1, h2, Bool.and_self, if_true]
      rw [hasPrefix_bracket] at h1
      rw [hasSuffix_bracket] at h2
      simp [h1, h2]
    · simp only [h1, h2, Bool.and_false, Bool.false_eq_true, if_false]
      rw [hasSuffix_bracket] at h2
      simp [h2]
  · simp only [h1, Bool.false_and, Bool.false_eq_true, if_false]
    rw [hasPrefix_bracket] at h1
    simp [h1]

theorem headerOf_header (n : Str) : headerOf ('[' :: n ++ [']']) = some n := by
  have hl : ('[' :: n ++ [']']).getLast? = some ']' := getLast?_snoc _ _
  have ht : trimSpace ('[' :: n ++ [']']) = '[' :: n ++ [']'] := by
    rw [trimSpace_fixed_iff]
    constructor
    · intro c hc
      simp only [List.cons_append, List.head?_cons, Option.mem_def, Option.some.injEq] at hc
      subst hc; decide
    · intro c hc
      rw [hl] at hc
      simp only [Option.mem_def, Option.some.injEq] at hc
      subst hc; decide
  rw [headerOf_eq_some_iff, ht]
  refine ⟨rfl, hl, ?_⟩
  simp [slice]

theorem headerOf_header_cons (n : Str) : headerOf ('[' :: (n ++ [']'])) = some n :=
  headerOf_header n

theorem headerOf_nil : headerOf [] = none := by decide

theorem assignmentOf_nil : assignmentOf [] = none := by decide

theorem takeWhile_until (p : Char → Bool) (k : Str) (c : Char) (v : Str)
    (hk : ∀ x ∈ k, p x = true) (hc : p c = false) :
    (k ++ c :: v).takeWhile p = k ∧ (k ++ c :: v).dropWhile p = c :: v := by
  induction k with
  | nil => simp [List.takeWhile, List.dropWhile, hc]
  | cons a k ih =>
    have ha : p a = true := hk a (by simp)
    have := ih (fun x hx => hk x (by simp [hx]))
    simp [List.takeWhile, List.dropWhile, ha, this]

theorem pair_line_trimmed {k v : Str} (h : GoodPair k v) :
    trimSpace (k ++ '=' :: v) = k ++ '=' :: v := by
  obtain ⟨-, -, -, hk, hv, -⟩ := h
  rw [trimSpace_fixed_iff] at hk hv ⊢
  constructor
  · intro c hc
    rw [head?_pair] at hc
    cases hkh : k.head? with
    | none =>
      rw [hkh] at hc
      simp only [Option.mem_def, Option.some.injEq] at hc
      subst hc; decide
    | some a =>
      rw [hkh] at hc
      simp only [Option.mem_def, Option.some.injEq] at hc
      subst hc
      exact hk.1 a (by rw [hkh]; rfl)
  · intro c hc
    rw [getLast?_pair] at hc
    cases hvl : v.getLast? with
    | none =>
      rw [hvl] at hc
      simp only [Option.mem_def, Option.some.injEq] at hc
      subst hc; decide
    | some a =>
      rw [hvl] at hc
      simp only [Option.mem_def, Option.some.injEq] at hc
      subst hc
      exact hv.2 a (by rw [hvl]; rfl)

theorem headerOf_pair {k v : Str} (h : GoodPair k v) : headerOf (k ++ '=' :: v) = none := by
  rw [headerOf_eq_none_iff, pair_line_trimmed h]
  obtain ⟨-, -, -, -, -, hnot⟩ := h
  rintro ⟨h1, h2⟩
  apply hnot
  rw [head?_pair] at h1
  rw [getLast?_pair] at h2
  constructor
  · cases hkh : k.head? with
    | none => rw [hkh] at h1; simp at h1
    | some a => rw [hkh] at h1; exact h1
  · cases hvl : v.getLast? with
    | none => rw [hvl] at h2; simp at h2
    | some a => rw [hvl] at h2; exact h2

theorem assignmentOf_pair {k v : Str} (h : GoodPair k v) :
    assignmentOf (k ++ '=' :: v) = some (k, v) := by
  have hh := headerOf_pair h
  have ht := pair_line_trimmed h
  obtain ⟨-, -, hke, hk, hv, -⟩ := h
  have hnh : (hasPrefix (k ++ '=' :: v) ['['] && hasSuffix (k ++ '=' :: v) [']']) = false := by
    simp only [headerOf, ht] at hh
    by_contra hc
    rw [Bool.not_eq_false] at hc
    rw [if_pos hc] at hh
    cases hh
  have hc : contains (k ++ '=' :: v) ['='] = true := by
    rw [contains_iff]; exact ⟨k, v, by simp⟩
  have hs := takeWhile_until (fun c => c != '=') k '=' v
    (fun x hx => by
      have : x ≠ '=' := fun e => hke (e ▸ hx)
      simpa using this) (by simp)
  simp only [assignmentOf, ht, hnh, Bool.false_eq_true, if_false, hc, if_true, splitAtEq,
    hs.1, hs.2, List.drop_succ_cons, List.drop_zero, hk, hv]

/-! ### Reading back what `reconstruct` writes -/

theorem renderSection_lines (s : Section) :
    renderSection s = ((sectionLines s).map (fun l => l ++ ['\n'])).flatten := by
  simp [renderSection, sectionLines, List.map_map, Function.comp_def]

theorem reconstruct_lines (secs : List Section) :
    reconstruct secs =
      (((secs.map sectionLines).flatten).map (fun l => l ++ ['\n'])).flatten := by
  rw [reconstruct_eq]
  induction secs with
  | nil => rfl
  | cons s secs ih =>
    simp only [List.map_cons, List.flatten_cons, List.map_append, List.flatten_append, ih,
      renderSection_lines]

theorem sectionLines_no_newline {s : Section} (hg : GoodSection s) :
    ∀ l ∈ sectionLines s, '\n' ∉ l := by
  intro l hl
  simp only [sectionLines, List.cons_append, List.mem_cons, List.mem_append, List.mem_map,
    List.mem_singleton] at hl
  rcases hl with rfl | ⟨kv, hkv, rfl⟩ | rfl | h
  · intro hm
    simp only [List.mem_cons, List.mem_append, List.mem_singleton] at hm
    rcases hm with h | h | h
    · exact absurd h (by decide)
    · exact hg.1 h
    · exact absurd h (by decide)
  · obtain ⟨h1, h2, -⟩ := hg.2.2 kv hkv
    intro hm
    simp only [List.mem_append, List.mem_cons] at hm
    rcases hm with h | h | h
    · exact h1 h
    · exact absurd h (by decide)
    · exact h2 h
  · simp
  · simp at h

theorem splitLines_reconstruct (secs : List Section) (hg : ∀ s ∈ secs, GoodSection s) :
    splitLines (reconstruct secs) = (secs.map sectionLines).flatten ++ [[]] := by
  rw [reconstruct_lines]
  have h := splitLines_lines ((secs.map sectionLines).flatten) [] (by
    intro l hl
    obtain ⟨ls, hls, hl'⟩ := List.mem_flatten.mp hl
    obtain ⟨s, hs, rfl⟩ := List.mem_map.mp hls
    exact sectionLines_no_newline (hg s hs) l hl')
  rw [List.append_nil] at h
  rw [h]
  rfl

theorem filterMap_headerOf_pairs (keys : List KeyVal)
    (hg : ∀ kv ∈ keys, GoodPair kv.Key kv.Value) :
    (keys.map (fun kv => kv.Key ++ '=' :: kv.Value)).filterMap headerOf = [] := by
  rw [List.filterMap_eq_nil_iff]
  intro l hl
  obtain ⟨kv, hkv, rfl⟩ := List.mem_map.mp hl
  exact headerOf_pair (hg kv hkv)

theorem headers_sectionLines {s : Section} (hg : GoodSection s) :
    (sectionLines s).filterMap headerOf = [s.Name] := by
  simp only [sectionLines, List.cons_append, List.filterMap_cons, headerOf_header_cons,
    List.filterMap_append, filterMap_headerOf_pairs s.Keys hg.2.2, List.nil_append,
    headerOf_nil, List.filterMap_nil]

theorem headers_lines (secs : List Section) (hg : ∀ s ∈ secs, GoodSection s) :
    ((secs.map sectionLines).flatten ++ [[]]).filterMap headerOf = secs.map Section.Name := by
  induction secs with
  | nil => simp [headerOf_nil]
  | cons s secs ih =>
    have := ih (fun t ht => hg t (by simp [ht]))
    simp only [List.map_cons, List.flatten_cons, List.append_assoc, List.filterMap_append,
      headers_sectionLines (hg s (by simp))] at this ⊢
    rw [this]
    rfl

theorem assignmentsFrom_cons_header {l h : Str} (n : Str) (cur : Option Str) (ls : List Str)
    (hh : headerOf l = some h) :
    assignmentsFrom n cur (l :: ls) = assignmentsFrom n (some h) ls := by
  simp only [assignmentsFrom, hh]

theorem assignmentsFrom_cons_assign {l : Str} {kv : Str × Str} (n : Str) (cur : Option Str)
    (ls : List Str) (hh : headerOf l = none) (ha : assignmentOf l = some kv) :
    assignmentsFrom n cur (l :: ls) =
      if cur = some n then kv :: assignmentsFrom n cur ls else assignmentsFrom n cur ls := by
  simp only [assignmentsFrom, hh, ha]

theorem assignmentsFrom_cons_other {l : Str} (n : Str) (cur : Option Str)
    (ls : List Str) (hh : headerOf l = none) (ha : assignmentOf l = none) :
    assignmentsFrom n cur (l :: ls) = assignmentsFrom n cur ls := by
  simp only [assignmentsFrom, hh, ha]

theorem assignmentsFrom_pairs (n m : Str) (keys : List KeyVal) (rest : List Str)
    (hg : ∀ kv ∈ keys, GoodPair kv.Key kv.Value) :
    assignmentsFrom n (some m) (keys.map (fun kv => kv.Key ++ '=' :: kv.Value) ++ rest) =
      (if m = n then keys.map (fun kv => (kv.Key, kv.Value)) else []) ++
        assignmentsFrom n (some m) rest := by
  induction keys with
  | nil => simp
  | cons kv keys ih =>
    have hp := hg kv (by simp)
    have := ih (fun kv' h' => hg kv' (by simp [h']))
    rw [List.map_cons, List.cons_append,
      assignmentsFrom_cons_assign n (some m) _ (headerOf_pair hp) (assignmentOf_pair hp), this]
    by_cases hmn : m = n
    · simp [hmn]
    · have : ¬ (some m = some n) := fun e => hmn (Option.some.inj e)
      simp [hmn, this]

theorem assignmentsFrom_sectionLines (n : Str) (cur : Option Str) (s : Section)
    (rest : List Str) (hg : GoodSection s) :
    assignmentsFrom n cur (sectionLines s ++ rest) =
      (if s.Name = n then s.Keys.map (fun kv => (kv.Key, kv.Value)) else []) ++
        assignmentsFrom n (some s.Name) rest := by
  have h0 : sectionLines s ++ rest = ('[' :: s.Name ++ [']']) ::
      (s.Keys.map (fun kv => kv.Key ++ '=' :: kv.Value) ++ ([] :: rest)) := by
    simp [sectionLines]
  rw [h0, assignmentsFrom_cons_header n cur _ (headerOf_header s.Name),
    assignmentsFrom_pairs n s.Name s.Keys _ hg.2.2,
    assignmentsFrom_cons_other n _ rest headerOf_nil assignmentOf_nil]

theorem assignmentsFrom_other (n : Str) (cur : Option Str) (secs : List Section)
    (hg : ∀ s ∈ secs, GoodSection s) (hn : ∀ s ∈ secs, s.Name ≠ n) :
    assignmentsFrom n cur ((secs.map sectionLines).flatten ++ [[]]) = [] := by
  induction secs generalizing cur with
  | nil =>
    simp only [List.map_nil, List.flatten_nil, List.nil_append]
    rw [assignmentsFrom_cons_other n cur [] headerOf_nil assignmentOf_nil]
    rfl
  | cons s secs ih =>
    simp only [List.map_cons, List.flatten_cons, List.append_assoc]
    rw [assignmentsFrom_sectionLines n cur s _ (hg s (by simp)), if_neg (hn s (by simp)),
      List.nil_append]
    exact ih _ (fun t ht => hg t (by simp [ht])) (fun t ht => hn t (by simp [ht]))

theorem assignmentsFrom_own (cur : Option Str) (secs : List Section) (s : Section)
    (hg : ∀ s ∈ secs, GoodSection s) (hnd : (secs.map Section.Name).Nodup) (hs : s ∈ secs) :
    assignmentsFrom s.Name cur ((secs.map sectionLines).flatten ++ [[]]) =
      s.Keys.map (fun kv => (kv.Key, kv.Value)) := by
  induction secs generalizing cur with
  | nil => simp at hs
  | cons t secs ih =>
    simp only [List.map_cons, List.flatten_cons, List.append_assoc]
    rw [assignmentsFrom_sectionLines s.Name cur t _ (hg t (by simp))]
    simp only [List.map_cons, List.nodup_cons] at hnd
    rcases List.mem_cons.mp hs with rfl | hs'
    · rw [if_pos rfl, assignmentsFrom_other s.Name _ secs (fun u hu => hg u (by simp [hu]))
        (fun u hu hun => hnd.1 (List.mem_map.mpr ⟨u, hu, hun⟩)), List.append_nil]
    · have hne : t.Name ≠ s.Name := fun e => hnd.1 (List.mem_map.mpr ⟨s, hs', e.symm⟩)
      rw [if_neg hne, List.nil_append]
      exact ih _ (fun u hu => hg u (by simp [hu])) hnd.2 hs'

theorem lastValue_of_nodup (keys : List KeyVal) (hnd : (keys.map KeyVal.Key).Nodup) :
    ∀ kv ∈ keys, lastValue kv.Key (keys.map (fun kv => (kv.Key, kv.Value))) = kv.Value := by
  induction keys using List.reverseRecOn with
  | nil => simp
  | append_singleton init kv0 ih =>
    intro kv hkv
    simp only [List.map_append, List.map_cons, List.map_nil] at hnd ⊢
    rw [lastValue_snoc]
    rw [List.nodup_append] at hnd
    rcases List.mem_append.mp hkv with hin | hlast
    · have hne : kv0.Key ≠ kv.Key := by
        intro e
        exact hnd.2.2 (List.mem_map.mpr ⟨kv, hin, rfl⟩) (by simp [e])
      rw [if_neg hne]
      exact ih hnd.1 kv hin
    · rw [List.mem_singleton] at hlast
      subst hlast
      rw [if_pos rfl]

theorem collapse_pairs (keys : List KeyVal) (hnd : (keys.map KeyVal.Key).Nodup) :
    collapse (keys.map (fun kv => (kv.Key, kv.Value))) = keys := by
  have hk : (keys.map (fun kv => (kv.Key, kv.Value))).map Prod.fst = keys.map KeyVal.Key := by
    simp [List.map_map, Function.comp_def]
  simp only [collapse, hk, dedupFirst_of_nodup hnd, List.map_map]
  conv_rhs => rw [← List.map_id keys]
  apply List.map_congr_left
  intro kv hkv
  simp only [Function.comp_apply, id_eq]
  rw [lastValue_of_nodup keys hnd kv hkv]

/-- Sections with distinct names, each of them good, are read back from their text. -/
theorem parse_reconstruct (secs : List Section) (hnd : (secs.map Section.Name).Nodup)
    (hg : ∀ s ∈ secs, GoodSection s) : parse (reconstruct secs) = secs := by
  rw [parse_eq, splitLines_reconstruct secs hg, parsedForm, headers_lines secs hg,
    dedupFirst_of_nodup hnd, List.map_map]
  conv_rhs => rw [← List.map_id secs]
  apply List.map_congr_left
  intro s hs
  simp only [Function.comp_apply, id_eq]
  rw [assignmentsFrom_own none secs s hg hnd hs, collapse_pairs s.Keys (hg s hs).2.1]

/-! ### What the parse loop reads is good -/

theorem head?_trimSpace {s : Str} {c : Char} (h : s.head? = some c) (hc : isSpace c = false) :
    (trimSpace s).head? = some c := by
  cases s with
  | nil => simp at h
  | cons a l =>
    simp only [List.head?_cons, Option.some.injEq] at h
    subst h
    have hd : (a :: l).dropWhile isSpace = a :: l := by
      simp [List.dropWhile, hc]
    rw [trimSpace_eq, hd]
    obtain ⟨t, ht⟩ := List.rdropWhile_prefix isSpace (a :: l)
    cases hr : (a :: l).rdropWhile isSpace with
    | nil =>
      have := List.rdropWhile_eq_nil_iff.mp hr a (by simp)
      rw [hc] at this
      cases this
    | cons b r =>
      rw [hr] at ht
      simp only [List.cons_append, List.cons.injEq] at ht
      simp [ht.1]

theorem getLast?_trimSpace {s : Str} {c : Char} (h : s.getLast? = some c)
    (hc : isSpace c = false) : (trimSpace s).getLast? = some c := by
  rcases List.eq_nil_or_concat s with rfl | ⟨init, x, rfl⟩
  · simp at h
  · rw [List.concat_eq_append] at h ⊢
    rw [getLast?_snoc, Option.some.injEq] at h
    subst h
    obtain ⟨t, ht⟩ := @List.dropWhile_suffix _ (init ++ [x]) isSpace
    have hne : (init ++ [x]).dropWhile isSpace ≠ [] := by
      intro he
      have := List.dropWhile_eq_nil_iff.mp he x (by simp)
      rw [hc] at this
      cases this
    have hlast : ((init ++ [x]).dropWhile isSpace).getLast? = some x := by
      rcases List.eq_nil_or_concat ((init ++ [x]).dropWhile isSpace) with he | ⟨i2, y, he⟩
      · exact absurd he hne
      · rw [List.concat_eq_append] at he
        rw [he] at ht ⊢
        rw [← List.append_assoc] at ht
        have := List.append_inj_right' ht rfl
        simp only [List.cons.injEq, and_true] at this
        rw [getLast?_snoc, this]
    have hr : ((init ++ [x]).dropWhile isSpace).rdropWhile isSpace
        = (init ++ [x]).dropWhile isSpace := by
      rw [List.rdropWhile_eq_self_iff]
      intro hl
      have : ((init ++ [x]).dropWhile isSpace).getLast hl = x := by
        have h2 := List.getLast?_eq_getLast _ hl
        rw [hlast] at h2
        exact (Option.some.inj h2).symm
      rw [this, hc]
      simp
    rw [trimSpace_eq, hr, hlast]

theorem mem_of_mem_slice {c : Char} {s : Str} {lo hi : Nat} (h : c ∈ slice s lo hi) : c ∈ s :=
  List.mem_of_mem_take (List.mem_of_mem_drop h)

theorem headerOf_no_newline {l n : Str} (h : headerOf l = some n) (hl : '\n' ∉ l) :
    '\n' ∉ n := by
  rw [headerOf_eq_some_iff] at h
  obtain ⟨-, -, rfl⟩ := h
  intro hm
  exact hl (mem_of_mem_trimSpace (mem_of_mem_slice hm))

theorem assignmentOf_eq_some {l : Str} {kv : Str × Str} (h : assignmentOf l = some kv) :
    headerOf l = none ∧
      kv = (trimSpace ((trimSpace l).takeWhile (fun c => c != '=')),
        trimSpace (((trimSpace l).dropWhile (fun c => c != '=')).drop 1)) := by
  simp only [assignmentOf, headerOf] at h ⊢
  by_cases hc : (hasPrefix (trimSpace l) ['['] && hasSuffix (trimSpace l) [']']) = true
  · rw [if_pos hc] at h; cases h
  · rw [if_neg hc] at h ⊢
    by_cases he : contains (trimSpace l) ['='] = true
    · rw [if_pos he] at h
      simp only [splitAtEq, Option.some.injEq] at h
      exact ⟨rfl, h.symm⟩
    · rw [if_neg he] at h; cases h

theorem assignmentOf_good {l : Str} {kv : Str × Str} (h : assignmentOf l = some kv)
    (hl : '\n' ∉ l) : GoodPair kv.1 kv.2 := by
  obtain ⟨hh, rfl⟩ := assignmentOf_eq_some h
  have ht := (trimSpace_fixed_iff (trimSpace l)).mp (trimSpace_idem l)
  have hsplit := List.takeWhile_append_dropWhile (fun c => c != '=') (trimSpace l)
  refine ⟨?_, ?_, ?_, trimSpace_idem _, trimSpace_idem _, ?_⟩
  · intro hm
    exact hl (mem_of_mem_trimSpace
      ((List.takeWhile_prefix _).sublist.subset (mem_of_mem_trimSpace hm)))
  · intro hm
    exact hl (mem_of_mem_trimSpace
      ((List.dropWhile_sublist _).subset (List.mem_of_mem_drop (mem_of_mem_trimSpace hm))))
  · intro hm
    have := List.mem_takeWhile_imp (mem_of_mem_trimSpace hm)
    simp at this
  · rintro ⟨h1, h2⟩
    simp only at h1 h2
    rw [headerOf_eq_none_iff] at hh
    apply hh
    constructor
    · -- the key starts the trimmed line
      cases htw : (trimSpace l).takeWhile (fun c => c != '=') with
      | nil => rw [htw] at h1; simp [trimSpace] at h1
      | cons a tw =>
        rw [htw] at hsplit h1
        have hhead : (trimSpace l).head? = some a := by rw [← hsplit]; rfl
        have ha : isSpace a = false := ht.1 a (by rw [hhead]; rfl)
        rw [@head?_trimSpace (a :: tw) a rfl ha] at h1
        rw [hhead, h1]
    · -- the value ends the trimmed line
      cases hdw : (trimSpace l).dropWhile (fun c => c != '=') with
      | nil => rw [hdw] at h2; simp [trimSpace] at h2
      | cons b x =>
        rw [hdw] at hsplit h2
        simp only [List.drop_succ_cons, List.drop_zero] at h2
        rcases List.eq_nil_or_concat x with rfl | ⟨init, y, rfl⟩
        · simp [trimSpace] at h2
        · rw [List.concat_eq_append] at h2 hsplit
          have hlast : (trimSpace l).getLast? = some y := by
            rw [← hsplit]
            have e : (trimSpace l).takeWhile (fun c => c != '=') ++ b :: (init ++ [y])
                = ((trimSpace l).takeWhile (fun c => c != '=') ++ b :: init) ++ [y] := by simp
            rw [e, getLast?_snoc]
          have hy : isSpace y = false := ht.2 y (by rw [hlast]; rfl)
          rw [getLast?_trimSpace (getLast?_snoc init y) hy] at h2
          rw [hlast, h2]

theorem mem_assignmentsFrom {n : Str} {cur : Option Str} {ls : List Str} {kv : Str × Str}
    (h : kv ∈ assignmentsFrom n cur ls) : ∃ l ∈ ls, assignmentOf l = some kv := by
  induction ls generalizing cur with
  | nil => simp [assignmentsFrom] at h
  | cons l ls ih =>
    cases hh : headerOf l with
    | some hd =>
      rw [assignmentsFrom_cons_header n cur ls hh] at h
      obtain ⟨l', hl', ha⟩ := ih h
      exact ⟨l', by simp [hl'], ha⟩
    | none =>
      cases ha : assignmentOf l with
      | none =>
        rw [assignmentsFrom_cons_other n cur ls hh ha] at h
        obtain ⟨l', hl', ha'⟩ := ih h
        exact ⟨l', by simp [hl'], ha'⟩
      | some kv' =>
        rw [assignmentsFrom_cons_assign n cur ls hh ha] at h
        by_cases hc : cur = some n
        · rw [if_pos hc] at h
          rcases List.mem_cons.mp h with rfl | h'
          · exact ⟨l, by simp, ha⟩
          · obtain ⟨l', hl', ha'⟩ := ih h'
            exact ⟨l', by simp [hl'], ha'⟩
        · rw [if_neg hc] at h
          obtain ⟨l', hl', ha'⟩ := ih h
          exact ⟨l', by simp [hl'], ha'⟩

theorem lastValue_mem {k : Str} {A : List (Str × Str)} (h : k ∈ A.map Prod.fst) :
    (k, lastValue k A) ∈ A := by
  induction A using List.reverseRecOn with
  | nil => simp at h
  | append_singleton A p ih =>
    obtain ⟨k', v'⟩ := p
    rw [lastValue_snoc]
    by_cases hk : k' = k
    · subst hk; simp
    · rw [if_neg hk]
      simp only [List.map_append, List.map_cons, List.map_nil, List.mem_append,
        List.mem_singleton] at h
      rcases h with h | h
      · exact List.mem_append_left _ (ih h)
      · exact absurd h.symm hk

/-- Every section that the parse loop reads is good. -/
theorem parse_good (content : Str) : ∀ s ∈ parse content, GoodSection s := by
  intro s hs
  rw [parse_eq] at hs
  obtain ⟨n, hn, rfl⟩ := List.mem_map.mp hs
  have hlines := splitLines_no_newline content
  refine ⟨?_, ?_, ?_⟩
  · have hm := mem_dedupFirst.mp hn
    obtain ⟨l, hl, hh⟩ := List.mem_filterMap.mp hm
    exact headerOf_no_newline hh (hlines l hl)
  · simp only [collapse_keys]
    exact dedupFirst_nodup _
  · intro kv hkv
    simp only at hkv
    obtain ⟨k, hk, rfl⟩ := List.mem_map.mp hkv
    have hmem := lastValue_mem (mem_dedupFirst.mp hk)
    obtain ⟨l, hl, ha⟩ := mem_assignmentsFrom hmem
    exact assignmentOf_good ha (hlines l hl)

/-! ### What the update loop leaves is good -/

theorem token_no_newline : ∀ d ∈ defaultIgnoreDirs, '\n' ∉ d := by decide

theorem mem_intercalate {c : Char} {sep : Str} {ls : List Str}
    (h : c ∈ sep.intercalate ls) : c ∈ sep ∨ ∃ l ∈ ls, c ∈ l := by
  induction ls with
  | nil => simp [List.intercalate] at h
  | cons a ls ih =>
    cases ls with
    | nil =>
      simp only [List.intercalate, List.intersperse, List.flatten_cons, List.flatten_nil,
        List.append_nil] at h
      exact Or.inr ⟨a, by simp, h⟩
    | cons b ls =>
      have e : sep.intercalate (a :: b :: ls) = a ++ sep ++ sep.intercalate (b :: ls) := by
        simp [List.intercalate, List.intersperse]
      rw [e, List.mem_append, List.mem_append] at h
      rcases h with (h | h) | h
      · exact Or.inr ⟨a, by simp, h⟩
      · exact Or.inl h
      · rcases ih h with h' | ⟨l, hl, hc⟩
        · exact Or.inl h'
        · exact Or.inr ⟨l, by simp [hl], hc⟩

theorem intercalate_quoted_ends (sep : Str) (l : List Str) (hne : l ≠ []) :
    (sep.intercalate (l.map quoted)).head? = some '"' ∧
      (sep.intercalate (l.map quoted)).getLast? = some '"' := by
  induction l with
  | nil => exact absurd rfl hne
  | cons a l ih =>
    cases l with
    | nil =>
      have e : sep.intercalate ([a].map quoted) = ('"' :: a) ++ ['"'] := by
        simp [List.intercalate, List.intersperse, quoted]
      rw [e]
      exact ⟨rfl, getLast?_snoc _ _⟩
    | cons b l =>
      have e : sep.intercalate ((a :: b :: l).map quoted)
          = quoted a ++ sep ++ sep.intercalate ((b :: l).map quoted) := by
        simp [List.intercalate, List.intersperse]
      obtain ⟨-, h2⟩ := ih (by simp)
      rw [e]
      constructor
      · simp [quoted]
      · rcases List.eq_nil_or_concat (sep.intercalate ((b :: l).map quoted)) with
          he | ⟨init, y, he⟩
        · rw [he] at h2; simp at h2
        · rw [List.concat_eq_append] at he
          rw [he] at h2 ⊢
          rw [getLast?_snoc] at h2
          rw [← List.append_assoc, getLast?_snoc, h2]

theorem ensureBlackList_no_newline {cur : Str} (hc : '\n' ∉ cur) :
    '\n' ∉ ensureBlackList defaultIgnoreDirs cur := by
  rw [ensureBlackList_eq]
  split
  · exact hc
  · intro hm
    rw [List.mem_append] at hm
    rcases hm with hm | hm
    · split at hm
      · exact hc hm
      · rw [List.mem_append] at hm
        rcases hm with hm | hm
        · exact hc hm
        · exact absurd hm (by decide)
    · rcases mem_intercalate hm with h | ⟨l, hl, hcl⟩
      · exact absurd h (by decide)
      · obtain ⟨d, hd, rfl⟩ := List.mem_map.mp hl
        have hd' := (List.mem_filter.mp hd).1
        simp only [quoted, List.mem_cons, List.mem_append, List.mem_singleton] at hcl
        rcases hcl with (h | h) | h
        · exact absurd h (by decide)
        · exact token_no_newline d hd' h
        · exact absurd h (by decide)

theorem ensureBlackList_trimmed {cur : Str} (hc : trimSpace cur = cur)
    (hne : ensureBlackList defaultIgnoreDirs cur ≠ cur) :
    trimSpace (ensureBlackList defaultIgnoreDirs cur) = ensureBlackList defaultIgnoreDirs cur := by
  rw [ensureBlackList_eq] at hne ⊢
  split at hne
  · exact absurd rfl hne
  · rename_i hmiss
    rw [if_neg hmiss]
    obtain ⟨hJ1, hJ2⟩ := intercalate_quoted_ends [',', ' ']
      (defaultIgnoreDirs.filter (fun d => !contains cur (quoted d) && !contains cur d)) hmiss
    generalize [',', ' '].intercalate ((defaultIgnoreDirs.filter
      (fun d => !contains cur (quoted d) && !contains cur d)).map quoted) = J at hJ1 hJ2
    rw [trimSpace_fixed_iff] at hc ⊢
    constructor
    · intro c hcm
      rw [List.head?_append] at hcm
      by_cases hcur : cur = []
      · subst hcur
        simp only [true_or, if_true, List.head?_nil, Option.none_or, hJ1, Option.mem_def,
          Option.some.injEq] at hcm
        subst hcm; decide
      · obtain ⟨a, l, rfl⟩ := List.exists_cons_of_ne_nil hcur
        have : (if a :: l = [] ∨ [',', ' '] <:+ a :: l then a :: l
            else a :: l ++ [',', ' ']).head? = some a := by
          split <;> rfl
        rw [this] at hcm
        have hor : (some a).or J.head? = some a := rfl
        rw [hor] at hcm
        simp only [Option.mem_def, Option.some.injEq] at hcm
        subst hcm
        exact hc.1 a rfl
    · intro c hcm
      rw [List.getLast?_append, hJ2] at hcm
      have hor : ∀ o : Option Char, (some '"').or o = some '"' := fun _ => rfl
      rw [hor] at hcm
      simp only [Option.mem_def, Option.some.injEq] at hcm
      subst hcm; decide

theorem assignKey_same {k v : Str} {keys : List KeyVal} {kv : KeyVal}
    (hnd : (keys.map KeyVal.Key).Nodup) (hm : kv ∈ assignKey k v keys) (hk : kv.Key = k) :
    kv.Value = v := by
  rcases keys_cases k keys with ⟨hn, ha⟩ | ⟨pre, kv', post, rfl, hk', hp, hf⟩
  · simp only [assignKey, hn, List.mem_append, List.mem_singleton] at hm
    rcases hm with hm | rfl
    · exact absurd hk (ha kv hm)
    · rfl
  · simp only [assignKey, hf, setValueAt_append_cons, List.mem_append, List.mem_cons] at hm
    simp only [List.map_append, List.map_cons] at hnd
    rw [List.nodup_append] at hnd
    rcases hm with hm | rfl | hm
    · exact absurd hk (hp kv hm)
    · rfl
    · have h1 := (List.nodup_cons.mp hnd.2.1).1
      exact absurd (List.mem_map.mpr ⟨kv, hm, hk.trans hk'.symm⟩) h1

theorem blackName_good {v : Str} (h1 : '\n' ∉ v) (h2 : trimSpace v = v) :
    GoodPair blackName v :=
  ⟨by decide, h1, by decide, by decide, h2, fun h => absurd h.1 (by decide)⟩

theorem refresh_good {s : Section} (hg : GoodSection s) :
    GoodSection (refresh defaultIgnoreDirs s) := by
  obtain ⟨hname, hnd, hpairs⟩ := hg
  have hcur : '\n' ∉ currentValue s.Keys ∧ trimSpace (currentValue s.Keys) = currentValue s.Keys := by
    rcases currentValue_mem s.Keys with h0 | ⟨kv, hkv, hval⟩
    · rw [h0]; exact ⟨by simp, by decide⟩
    · rw [← hval]
      exact ⟨(hpairs kv hkv).2.1, (hpairs kv hkv).2.2.2.2.1⟩
  refine ⟨hname, ?_, ?_⟩
  · simp only [refresh]
    rw [refresh_keys]
    by_cases hb : blackName ∈ s.Keys.map KeyVal.Key
    · simpa [hb] using hnd
    · simp only [hb, if_false]
      rw [List.nodup_append]
      refine ⟨hnd, by simp, ?_⟩
      intro a ha hb'
      rw [List.mem_singleton] at hb'
      exact hb (hb' ▸ ha)
  · intro kv hkv
    simp only [refresh] at hkv
    by_cases hk : kv.Key = blackName
    · rw [updateKeys_eq] at hkv
      split at hkv
      · exact hpairs kv hkv
      · rename_i hne
        have hv := assignKey_same hnd hkv hk
        rw [hk, hv]
        exact blackName_good (ensureBlackList_no_newline hcur.1)
          (ensureBlackList_trimmed hcur.2 (fun e => hne e.symm))
    · exact hpairs kv (refresh_other hkv hk)

theorem mergedSections_names (content : Str) :
    (mergedSections content).map Section.Name =
      inputSectionNames content ++
        (if directoryName ∈ inputSectionNames content then [] else [directoryName]) := by
  rw [mergedSections_eq, List.map_map]
  have hn : (Section.Name ∘
      fun s => if isTargetSection s.Name then refresh defaultIgnoreDirs s else s)
      = Section.Name := by
    funext s
    by_cases h : isTargetSection s.Name = true <;> simp [h, refresh_name]
  rw [hn]
  by_cases hd : directoryName ∈ inputSectionNames content
  · simp [hd, parse_names]
  · simp [hd, parse_names]

theorem mergedSections_nodup (content : Str) :
    ((mergedSections content).map Section.Name).Nodup := by
  rw [mergedSections_names]
  by_cases hd : directoryName ∈ inputSectionNames content
  · simpa [hd] using dedupFirst_nodup _
  · simp only [hd, if_false]
    rw [List.nodup_append]
    refine ⟨dedupFirst_nodup _, by simp, ?_⟩
    intro a ha hb
    rw [List.mem_singleton] at hb
    exact hd (hb ▸ ha)

theorem mergedSections_good (content : Str) : ∀ s ∈ mergedSections content, GoodSection s := by
  intro s hs
  rw [mergedSections_eq] at hs
  obtain ⟨t, ht, rfl⟩ := List.mem_map.mp hs
  have htg : GoodSection t := by
    by_cases hd : directoryName ∈ inputSectionNames content
    · rw [if_pos hd] at ht
      exact parse_good content t ht
    · rw [if_neg hd, List.mem_append, List.mem_singleton] at ht
      rcases ht with ht | rfl
      · exact parse_good content t ht
      · exact ⟨by decide, by simp, by simp⟩
  by_cases h : isTargetSection t.Name = true
  · rw [if_pos h]; exact refresh_good htg
  · rw [if_neg h]; exact htg

theorem mergedSections_of_unchanged {content : Str}
    (h : (update defaultIgnoreDirs (parse content)).2 = false) :
    mergedSections content = parse content := by
  rw [changed_eq, Bool.or_eq_false_iff] at h
  obtain ⟨h1, h2⟩ := h
  have hd : directoryName ∈ inputSectionNames content := by simpa using h1
  rw [mergedSections_eq, if_pos hd]
  conv_rhs => rw [← List.map_id (parse content)]
  apply List.map_congr_left
  intro s hs
  by_cases ht : isTargetSection s.Name = true
  · have := List.any_eq_false.mp h2 s hs
    simp only [ht, Bool.true_and, Bool.not_eq_true] at this
    rw [if_pos ht, id_eq]
    simp only [refresh, updateKeys_unchanged _ _ this]
  · rw [if_neg ht, id_eq]

/-- The text after the merge, read again, gives the sections after the update loop. -/
theorem parse_merge (content : Str) : parse (merge content).1 = mergedSections content := by
  cases h : (update defaultIgnoreDirs (parse content)).2
  · rw [(merge_of_unchanged h).1, mergedSections_of_unchanged h]
  · rw [merge_of_changed h]
    exact parse_reconstruct _ (mergedSections_nodup content) (mergedSections_good content)

/-! ### The claims -/

/-- C9: for every current value, `ensureBlackList` returns a value that starts
with the current one; it is the current value itself when no token is missing,
and otherwise the current value, then `", "` unless the current value is empty
or already ends in `", "`, then the quoted forms, joined by `", "` and in
rule-set order, of exactly the tokens for which neither the quoted nor the bare
form is a substring of the current value. -/
theorem ensureBlackList_append_only (current : Str) :
    current <+: ensureBlackList defaultIgnoreDirs current ∧
    ensureBlackList defaultIgnoreDirs current =
      if defaultIgnoreDirs.filter
          (fun d => ¬ (['"'] ++ d ++ ['"']) <:+: current ∧ ¬ d <:+: current) = [] then current
      else
        current ++ (if current = [] ∨ [',', ' '] <:+ current then [] else [',', ' ']) ++
          [',', ' '].intercalate
            ((defaultIgnoreDirs.filter
              (fun d => ¬ (['"'] ++ d ++ ['"']) <:+: current ∧ ¬ d <:+: current)).map
              (fun d => ['"'] ++ d ++ ['"'])) := by
  refine ⟨ensureBlackList_extends _ _, ?_⟩
  have hf : defaultIgnoreDirs.filter
        (fun d => ¬ (['"'] ++ d ++ ['"']) <:+: current ∧ ¬ d <:+: current)
      = defaultIgnoreDirs.filter
        (fun d => !contains current (quoted d) && !contains current d) := by
    apply List.filter_congr
    intro d _
    have hq : (['"'] ++ d ++ ['"']) = quoted d := by simp [quoted]
    rw [hq]
    have e1 : contains current (quoted d) = decide (quoted d <:+: current) := by
      rw [Bool.eq_iff_iff, contains_iff]; simp
    have e2 : contains current d = decide (d <:+: current) := by
      rw [Bool.eq_iff_iff, contains_iff]; simp
    rw [e1, e2]
    by_cases h1 : quoted d <:+: current <;> by_cases h2 : d <:+: current <;> simp [h1, h2]
  have hq : (fun d : Str => ['"'] ++ d ++ ['"']) = quoted := by
    funext d; simp [quoted]
  rw [hf, hq, ensureBlackList_eq]
  split
  · rfl
  · split <;> simp

theorem tokens_of_all (rules : List Str) (v : Str)
    (h : rules.all (fun d => contains v d) = true) :
    ∀ d ∈ rules, quoted d <:+: v ∨ d <:+: v := by
  intro d hd
  exact Or.inr ((contains_iff v d).mp (List.all_eq_true.mp h d hd))

theorem parse_completeText :
    parse completeText = [{ Name := directoryName, Keys := [{ Key := blackName, Value := completeValue }] }] := by
  decide

/-- C1: when the parsed form of a config text has a `[Directory]` section whose
`black_name` value contains every token of `defaultIgnoreDirs` as a substring
(quoted or bare), and every `[Common]` section of it does too, `merge` reports
`changed = false`, returns the text itself, and `ensureFileHasRules` returns
before it produces or writes any text. -/
theorem merge_idempotent (content : Str)
    (hdir : ∃ sec ∈ parse content, sec.Name = directoryName ∧
      ∀ d ∈ defaultIgnoreDirs,
        quoted d <:+: currentValue sec.Keys ∨ d <:+: currentValue sec.Keys)
    (hcom : ∀ sec ∈ parse content, sec.Name = commonName →
      ∀ d ∈ defaultIgnoreDirs,
        quoted d <:+: currentValue sec.Keys ∨ d <:+: currentValue sec.Keys) :
    merge content = (content, false) ∧
      ensureFileHasRules defaultIgnoreDirs content = none := by
  apply merge_of_unchanged
  rw [changed_eq]
  obtain ⟨sec, hsec, hname, htok⟩ := hdir
  have hmem : directoryName ∈ inputSectionNames content := by
    rw [← parse_names]; exact List.mem_map.mpr ⟨sec, hsec, hname⟩
  have hany : (parse content).any
      (fun s => isTargetSection s.Name && (updateKeys defaultIgnoreDirs s.Keys).2) = false := by
    rw [List.any_eq_false]
    intro s hs hc
    simp only [Bool.and_eq_true, isTargetSection, decide_eq_true_eq] at hc
    obtain ⟨ht, hu⟩ := hc
    have hfix : ∀ d ∈ defaultIgnoreDirs,
        quoted d <:+: currentValue s.Keys ∨ d <:+: currentValue s.Keys := by
      rcases ht with ht | ht
      · have : s = sec :=
          List.inj_on_of_nodup_map (parse_nodup content) hs hsec (ht.trans hname.symm)
        rw [this]; exact htok
      · exact hcom s hs ht
    exact (updateKeys_changed _ _).mp hu (ensureBlackList_fixed _ _ hfix).symm
  simp [hmem, hany]

/-- C1, at a text whose only section is a complete `[Directory]`. -/
theorem merge_idempotent_witness :
    merge completeText = (completeText, false) ∧
      ensureFileHasRules defaultIgnoreDirs completeText = none :=
  merge_idempotent completeText
    ⟨{ Name := directoryName, Keys := [{ Key := blackName, Value := completeValue }] },
      by rw [parse_completeText]; exact List.mem_singleton.mpr rfl, rfl,
      tokens_of_all defaultIgnoreDirs completeValue (by decide)⟩
    (by
      rw [parse_completeText]
      intro sec hsec hname
      rw [List.mem_singleton.mp hsec] at hname
      exact absurd hname (by decide))

/-- C2, as stated, fails on `gitignoreText`: `.gitignore` contains the token
`.git` as a substring, so `".git"` is never added; the merge rewrites the file,
and neither the `black_name` value of `[Directory]` nor the text written
contains `".git"` in quoted form. -/
theorem merge_completeness_counterexample :
    (merge gitignoreText).2 = true ∧
    ".git".toList ∈ defaultIgnoreDirs ∧
    ¬ quoted ".git".toList <:+: (merge gitignoreText).1 ∧
    ¬ ∀ sec ∈ parse (merge gitignoreText).1,
        sec.Name = directoryName ∨ sec.Name = commonName →
        ∀ d ∈ defaultIgnoreDirs, quoted d <:+: currentValue sec.Keys := by
  refine ⟨by decide, by decide, ?_, ?_⟩
  · rw [← contains_iff]; decide
  · intro h
    have hs : gitignoreMerged ∈ parse (merge gitignoreText).1 := by decide
    have := h gitignoreMerged hs (Or.inl rfl) ".git".toList (by decide)
    rw [← contains_iff] at this
    revert this
    decide

/-- C2, amended: for every input, the text after the merge, read as the program
reads it, has a `[Directory]` section, and the `black_name` value of every
`[Directory]` or `[Common]` section of it contains every token of
`defaultIgnoreDirs` as a substring; it contains the token in quoted form
unless the token was already a substring of the value the input had for that
section. -/
theorem merge_complete_bare (content : Str) :
    directoryName ∈ (parse (merge content).1).map Section.Name ∧
    ∀ sec ∈ parse (merge content).1, sec.Name = directoryName ∨ sec.Name = commonName →
      ∀ d ∈ defaultIgnoreDirs,
        d <:+: currentValue sec.Keys ∧
        (quoted d <:+: currentValue sec.Keys ∨ d <:+: inputValue content sec.Name) := by
  rw [parse_merge]
  refine ⟨directory_mem_mergedSections content, ?_⟩
  intro sec hsec ht d hd
  obtain ⟨old, hv, hold⟩ := mergedSections_target hsec ht
  rw [hv]
  have h := ensureBlackList_has defaultIgnoreDirs old d hd
  refine ⟨h.1, ?_⟩
  rcases h.2 with hq | hb
  · exact Or.inl hq
  · rcases hold with rfl | rfl
    · exact absurd (List.infix_nil.mp hb) (token_ne_nil d hd)
    · exact Or.inr hb

/-- C2 amended, at `gitignoreText`, its `[Directory]` section and the token `.git`. -/
theorem merge_complete_bare_witness :
    directoryName ∈ (parse (merge gitignoreText).1).map Section.Name ∧
    ".git".toList <:+: currentValue gitignoreMerged.Keys ∧
    (quoted ".git".toList <:+: currentValue gitignoreMerged.Keys ∨
      ".git".toList <:+: inputValue gitignoreText gitignoreMerged.Name) :=
  ⟨(merge_complete_bare gitignoreText).1,
    (merge_complete_bare gitignoreText).2 gitignoreMerged (by decide) (Or.inl rfl)
      ".git".toList (by decide)⟩

/-- C3, on `commonOnlyText`: every token occurs somewhere in the text (in
`[Common]`), so `fileNeedsRules` returns `false`, while the merge would rewrite
the file because `[Directory]` lacks the tokens. -/
theorem fileNeedsRules_misses_change :
    (merge commonOnlyText).2 = true ∧ fileNeedsRules commonOnlyText = false := by
  decide

/-- C4: when no line of the input is a `[Directory]` header, `merge` reports
`changed = true` and its text ends with the block `[Directory]`, newline,
`black_name=V`, newline, newline, where `V` is every token of
`defaultIgnoreDirs` in order, each in double quotes, joined by `", "`. -/
theorem merge_creates_directory (content : Str)
    (h : directoryName ∉ inputSectionNames content) :
    (merge content).2 = true ∧
    ("[Directory]\nblack_name=".toList ++
      [',', ' '].intercalate (defaultIgnoreDirs.map (fun d => ['"'] ++ d ++ ['"'])) ++
      ['\n', '\n']) <:+ (merge content).1 := by
  have hc : (update defaultIgnoreDirs (parse content)).2 = true := by
    rw [changed_eq]; simp [h]
  have hm : (merge content).2 = true := (merge_changed_iff content).mpr hc
  refine ⟨hm, ?_⟩
  rw [merge_text_of_changed hm, mergedSections_eq, if_neg h, List.map_append,
    reconstruct_append]
  have hlast : reconstruct ([({ Name := directoryName, Keys := [] } : Section)].map
        (fun s => if isTargetSection s.Name then refresh defaultIgnoreDirs s else s))
      = "[Directory]\nblack_name=".toList ++
        [',', ' '].intercalate (defaultIgnoreDirs.map (fun d => ['"'] ++ d ++ ['"'])) ++
        ['\n', '\n'] := by decide
  rw [hlast]
  exact List.suffix_append _ _

/-- C4, at the empty file. -/
theorem merge_creates_directory_witness :
    (merge []).2 = true ∧
    ("[Directory]\nblack_name=".toList ++
      [',', ' '].intercalate (defaultIgnoreDirs.map (fun d => ['"'] ++ d ++ ['"'])) ++
      ['\n', '\n']) <:+ (merge []).1 :=
  merge_creates_directory [] (by decide)

/-- C5, as stated, fails: under the rule set `node_modules`, `dist`, `.git`
the merge of the scenario input is not the text with the `[Common]` block alone. -/
theorem scenario_counterexample :
    mergeWith threeRules scenarioText ≠
      ("[Common]\nblack_name=\"node_modules\", \"dist\", \".git\"\n\n".toList, true) := by
  decide

/-- C5, amended: under the rule set `node_modules`, `dist`, `.git` the merge of
the scenario input returns `changed = true` and the text with the completed
`[Common]` block followed by a created `[Directory]` block that lists all three
tokens. -/
theorem scenario_with_directory :
    mergeWith threeRules scenarioText =
      (("[Common]\nblack_name=\"node_modules\", \"dist\", \".git\"\n\n" ++
        "[Directory]\nblack_name=\"node_modules\", \"dist\", \".git\"\n\n").toList, true) := by
  decide

/-- C10: whenever `merge` reports `changed = true`, `fileNeedsRules` returns
`false` on the text that `merge` produces. -/
theorem no_retrigger (content : Str) (h : (merge content).2 = true) :
    fileNeedsRules (merge content).1 = false := by
  rw [merge_text_of_changed h]
  obtain ⟨sec, hsec, hname⟩ := List.mem_map.mp (directory_mem_mergedSections content)
  obtain ⟨old, hv, -⟩ := mergedSections_target hsec (Or.inl hname)
  have hall : ∀ d ∈ defaultIgnoreDirs,
      contains (reconstruct (mergedSections content)) d = true := by
    intro d hd
    rw [contains_iff]
    have hin : d <:+: currentValue sec.Keys := by
      rw [hv]; exact (ensureBlackList_has defaultIgnoreDirs old d hd).1
    rcases currentValue_mem sec.Keys with h0 | ⟨kv, hkv, hval⟩
    · rw [h0] at hin
      exact absurd (List.infix_nil.mp hin) (token_ne_nil d hd)
    · rw [← hval] at hin
      exact hin.trans (value_infix_reconstruct hsec hkv)
  unfold fileNeedsRules needsRules
  rw [List.any_eq_false]
  intro d hd
  simp [hall d hd]

/-- C10, at the empty file. -/
theorem no_retrigger_witness : fileNeedsRules (merge []).1 = false :=
  no_retrigger [] (by decide)

/-- C6: whenever `merge` reports `changed = true`, the header lines of the text
it produces name, in order, the distinct section names of the input in
first-occurrence order, followed by `Directory` only when the input had no
`[Directory]` header; the text is exactly the rendering of the sections read
from it; and in each of these sections the keys are the distinct keys assigned
in that section of the input in first-occurrence order (followed by
`black_name` only in a `[Directory]` or `[Common]` section that had none), and
every key other than `black_name` has the value of its last assignment. -/
theorem merge_preserves_order (content : Str) (h : (merge content).2 = true) :
    (splitLines (merge content).1).filterMap headerOf =
      inputSectionNames content ++
        (if directoryName ∈ inputSectionNames content then [] else [directoryName]) ∧
    (merge content).1 = ((parse (merge content).1).map renderSection).flatten ∧
    ∀ sec ∈ parse (merge content).1,
      sec.Keys.map KeyVal.Key =
        dedupFirst ((inputAssignments content sec.Name).map Prod.fst) ++
          (if (sec.Name = directoryName ∨ sec.Name = commonName) ∧
              blackName ∉ (inputAssignments content sec.Name).map Prod.fst
            then [blackName] else []) ∧
      ∀ kv ∈ sec.Keys, kv.Key ≠ blackName →
        kv.Value = lastValue kv.Key (inputAssignments content sec.Name) := by
  rw [parse_merge]
  refine ⟨?_, by rw [merge_text_of_changed h, reconstruct_eq], ?_⟩
  · rw [merge_text_of_changed h, splitLines_reconstruct _ (mergedSections_good content),
      headers_lines _ (mergedSections_good content), mergedSections_names]
  · intro sec hsec
    rw [mergedSections_eq] at hsec
    obtain ⟨s, hs, rfl⟩ := List.mem_map.mp hsec
    have hk := pre_update_keys hs
    by_cases ht : isTargetSection s.Name = true
    · have ht' : s.Name = directoryName ∨ s.Name = commonName := by
        simpa [isTargetSection] using ht
      rw [if_pos ht]
      simp only [refresh]
      constructor
      · rw [refresh_keys, hk, collapse_keys]
        by_cases hb : blackName ∈ (inputAssignments content s.Name).map Prod.fst
        · simp [hb, mem_dedupFirst_fst_iff.mpr hb]
        · have hb' : blackName ∉ dedupFirst ((inputAssignments content s.Name).map Prod.fst) :=
            fun hm => hb (mem_dedupFirst.mp hm)
          simp only [hb', if_false, ht', hb, not_false_eq_true, and_self, if_true]
      · intro kv hkv hne
        have := refresh_other hkv hne
        rw [hk] at this
        exact collapse_value this
    · have ht' : ¬ (s.Name = directoryName ∨ s.Name = commonName) := by
        simpa [isTargetSection] using ht
      rw [if_neg ht]
      constructor
      · rw [hk, collapse_keys]
        simp [ht']
      · intro kv hkv _
        rw [hk] at hkv
        exact collapse_value hkv

/-- C6, at the scenario input. -/
theorem merge_preserves_order_witness :
    (splitLines (merge scenarioText).1).filterMap headerOf =
      inputSectionNames scenarioText ++
        (if directoryName ∈ inputSectionNames scenarioText then [] else [directoryName]) ∧
    (merge scenarioText).1 = ((parse (merge scenarioText).1).map renderSection).flatten ∧
    ∀ sec ∈ parse (merge scenarioText).1,
      sec.Keys.map KeyVal.Key =
        dedupFirst ((inputAssignments scenarioText sec.Name).map Prod.fst) ++
          (if (sec.Name = directoryName ∨ sec.Name = commonName) ∧
              blackName ∉ (inputAssignments scenarioText sec.Name).map Prod.fst
            then [blackName] else []) ∧
      ∀ kv ∈ sec.Keys, kv.Key ≠ blackName →
        kv.Value = lastValue kv.Key (inputAssignments scenarioText sec.Name) :=
  merge_preserves_order scenarioText (by decide)

/-! ### The debounce -/

theorem awaitExit_polls (polls more : List Select) (h : ∀ s ∈ polls, s = Select.tick true) :
    awaitExit (polls ++ Select.timeout :: more) =
      (List.replicate polls.length Action.pgrep ++
        [Action.pkill9 daemonPattern, Action.pkill9 uiPattern], true) := by
  induction polls with
  | nil => rfl
  | cons s polls ih =>
    have hs : s = Select.tick true := h s (by simp)
    subst hs
    have := ih (fun s hs => h s (List.mem_cons_of_mem _ hs))
    simp [awaitExit, this, List.replicate_succ]

theorem awaitStart_no_kill (sels : List Select) (p : Str) :
    (awaitStart sels).1.count (Action.pkill9 p) = 0 := by
  induction sels with
  | nil => simp [awaitStart]
  | cons s sels ih =>
    cases s with
    | timeout => simp [awaitStart]
    | tick found =>
      cases found
      · simp only [awaitStart, Bool.false_eq_true, if_false]
        rw [List.count_cons, ih]; simp
      · simp [awaitStart]

theorem awaitStart_no_pkill (sels : List Select) (p : Str) :
    (awaitStart sels).1.count (Action.pkill p) = 0 := by
  induction sels with
  | nil => simp [awaitStart]
  | cons s sels ih =>
    cases s with
    | timeout => simp [awaitStart]
    | tick found =>
      cases found
      · simp only [awaitStart, Bool.false_eq_true, if_false]
        rw [List.count_cons, ih]; simp
      · simp [awaitStart]

/-- C8, as stated, fails when the AppleScript quit has failed: the log of a
cycle whose one poll finds the process and whose exit wait then times out
holds two forceful termination requests against the daemon, the `pkill`
fallback of the quit and the `pkill -9` of the timeout, not one. -/
theorem exit_timeout_counterexample :
    enforceCycle false [Select.tick true, Select.timeout] [Select.tick true] =
      [Action.quit, Action.pkill daemonPattern, Action.pkill uiPattern, Action.pgrep,
        Action.pkill9 daemonPattern, Action.pkill9 uiPattern, Action.sleep 1,
        Action.checkAndEnforce, Action.openApp, Action.pgrep, Action.notify] ∧
    terminationRequests daemonPattern
      (enforceCycle false [Select.tick true, Select.timeout] [Select.tick true]) = 2 ∧
    terminationRequests daemonPattern
      (enforceCycle false [Select.tick true, Select.timeout] [Select.tick true]) ≠ 1 := by
  decide

/-- C8, amended: in every run of `enforceCycle` in which every poll before the
timeout finds the process, the log reads: the quit (and, when it failed, its
`pkill` fallback), one `pgrep` per poll, `pkill -9` of the daemon and of the
UI, the sleep of one second, `checkAndEnforce`, the start of the application
and the start wait; `pkill -9` is issued exactly once for each of its two
patterns in the whole cycle; and counting the `pkill` fallback too, forceful
termination is requested exactly once per pattern when the quit succeeded and
exactly twice when it failed. -/
theorem exit_timeout_kills_once (quitOk : Bool) (polls more startSelects : List Select)
    (h : ∀ s ∈ polls, s = Select.tick true) :
    (∃ tail,
      enforceCycle quitOk (polls ++ Select.timeout :: more) startSelects =
        Action.quit :: (if quitOk then [] else [Action.pkill daemonPattern, Action.pkill uiPattern]) ++
          List.replicate polls.length Action.pgrep ++
          [Action.pkill9 daemonPattern, Action.pkill9 uiPattern, Action.sleep 1,
            Action.checkAndEnforce, Action.openApp] ++ tail) ∧
    (enforceCycle quitOk (polls ++ Select.timeout :: more) startSelects).count
      (Action.pkill9 daemonPattern) = 1 ∧
    (enforceCycle quitOk (polls ++ Select.timeout :: more) startSelects).count
      (Action.pkill9 uiPattern) = 1 ∧
    terminationRequests daemonPattern
      (enforceCycle quitOk (polls ++ Select.timeout :: more) startSelects) =
        (if quitOk then 1 else 2) ∧
    terminationRequests uiPattern
      (enforceCycle quitOk (polls ++ Select.timeout :: more) startSelects) =
        (if quitOk then 1 else 2) := by
  have hex := awaitExit_polls polls more h
  have hcount : ∀ p, (List.replicate polls.length Action.pgrep).count (Action.pkill9 p) = 0 := by
    intro p
    rw [List.count_eq_zero]
    intro hm
    cases List.eq_of_mem_replicate hm
  have hcount' : ∀ p, (List.replicate polls.length Action.pgrep).count (Action.pkill p) = 0 := by
    intro p
    rw [List.count_eq_zero]
    intro hm
    cases List.eq_of_mem_replicate hm
  have hne : daemonPattern ≠ uiPattern := by decide
  have hs1 := awaitStart_no_kill startSelects daemonPattern
  have hs2 := awaitStart_no_kill startSelects uiPattern
  have hp1 := awaitStart_no_pkill startSelects daemonPattern
  have hp2 := awaitStart_no_pkill startSelects uiPattern
  refine ⟨?_, ?_, ?_, ?_, ?_⟩
  · cases hst : (awaitStart startSelects).2
    · exact ⟨(awaitStart startSelects).1, by
        cases quitOk <;> simp [enforceCycle, hex, hst]⟩
    · exact ⟨(awaitStart startSelects).1 ++ [Action.notify], by
        cases quitOk <;> simp [enforceCycle, hex, hst]⟩
  · cases hst : (awaitStart startSelects).2 <;> cases quitOk <;>
      simp [enforceCycle, hex, hst, List.count_append, List.count_cons, hcount, hs1, hne,
        hne.symm]
  · cases hst : (awaitStart startSelects).2 <;> cases quitOk <;>
      simp [enforceCycle, hex, hst, List.count_append, List.count_cons, hcount, hs2, hne,
        hne.symm]
  · cases hst : (awaitStart startSelects).2 <;> cases quitOk <;>
      simp [terminationRequests, enforceCycle, hex, hst, List.count_append, List.count_cons,
        hcount, hcount', hs1, hp1, hne, hne.symm]
  · cases hst : (awaitStart startSelects).2 <;> cases quitOk <;>
      simp [terminationRequests, enforceCycle, hex, hst, List.count_append, List.count_cons,
        hcount, hcount', hs2, hp2, hne, hne.symm]

/-- C8 amended, at a run whose quit fails and whose two polls both find the process. -/
theorem exit_timeout_kills_once_witness :
    (∃ tail,
      enforceCycle false [Select.tick true, Select.tick true, Select.timeout] [Select.tick true] =
        [Action.quit, Action.pkill daemonPattern, Action.pkill uiPattern, Action.pgrep,
          Action.pgrep, Action.pkill9 daemonPattern, Action.pkill9 uiPattern, Action.sleep 1,
          Action.checkAndEnforce, Action.openApp] ++ tail) ∧
    (enforceCycle false [Select.tick true, Select.tick true, Select.timeout]
      [Select.tick true]).count (Action.pkill9 daemonPattern) = 1 ∧
    (enforceCycle false [Select.tick true, Select.tick true, Select.timeout]
      [Select.tick true]).count (Action.pkill9 uiPattern) = 1 ∧
    terminationRequests daemonPattern
      (enforceCycle false [Select.tick true, Select.tick true, Select.timeout]
        [Select.tick true]) = 2 ∧
    terminationRequests uiPattern
      (enforceCycle false [Select.tick true, Select.tick true, Select.timeout]
        [Select.tick true]) = 2 :=
  exit_timeout_kills_once false [Select.tick true, Select.tick true] [] [Select.tick true]
    (by decide)

end SynologyDriveIgnore
